import Mathlib

/-!
Verification of the strat_test backtesting core (position builder,
range parser, net-worth simulator) against its specification.

The embedding models pandas DataFrames as rectangular lists of rows.
A cell is `Option ℚ`: `none` models a missing value (NaN), `some v`
a finite float value, with exact rational arithmetic in place of
IEEE floating point.  Tables of the price/position pair are modelled
label-aligned (same column order, same date index), which is the
configuration all claims quantify over.
-/
/-- A single DataFrame cell: `none` is NaN / missing. -/
abbrev Cell := Option ℚ

/-- One row (one date) of a DataFrame. -/
abbrev Row := List Cell

/-- A DataFrame: a list of rows, in date order. -/
abbrev Table := List Row

/-- Sum of a list of rationals, written out for reuse. -/
def sumAbsList (r : List ℚ) : ℚ := (r.map (fun x => |x|)).sum

/-- pandas `.abs().sum(axis=1)` on a row with NaN cells: NaN entries are
skipped (skipna) and the absolute values of the rest are summed. -/
def sumAbsRow (r : Row) : ℚ := ((r.filterMap id).map (fun x => |x|)).sum

/-- pandas `Series.sum()` over a row with possible NaN entries
(skipna=True): missing entries contribute nothing. -/
def nanSumRow (r : Row) : ℚ := (r.filterMap id).sum

/- ## Position builder: selection masks (`Position._gen_posi_abs`) -/
/-- `factor >= ls` on one cell: comparison with NaN is False in pandas. -/
def cellGe (ls : ℚ) (c : Cell) : Bool :=
  match c with
  | some v => decide (ls ≤ v)
  | none => false

/-- `factor <= ls` on one cell: comparison with NaN is False in pandas. -/
def cellLe (ls : ℚ) (c : Cell) : Bool :=
  match c with
  | some v => decide (v ≤ ls)
  | none => false

/-- `Position._gen_posi_abs` with a numeric `ls`: long mask is
`factor >= ls`, short mask is `factor <= ls`, elementwise. -/
def genPosiAbsNum (factor : Table) (ls : ℚ) :
    List (List Bool) × List (List Bool) :=
  (factor.map (fun r => r.map (cellGe ls)),
   factor.map (fun r => r.map (cellLe ls)))

/- ## Position builder: weighting (`Position._gen_weighted_posi`) -/
/-- The net signed mask cell of the "equal" scheme:
`long.astype(int) - short.astype(int)`. -/
def maskCell (l s : Bool) : ℚ := (if l then 1 else 0) - (if s then 1 else 0)

/-- Row-wise normalization of the "equal" scheme:
`posi_daily_sum = posi.abs().sum(axis=1).replace(0, np.nan)` followed by
`posi.div(posi_daily_sum, axis=0).fillna(0)`.  A zero row-sum becomes NaN,
every division by it yields NaN, and `fillna(0)` turns the row into zeros. -/
def equalWeightRow (row : List ℚ) : List ℚ :=
  let s := sumAbsList row
  if s = 0 then row.map (fun _ => 0) else row.map (fun x => x / s)

/-- `Position._gen_weighted_posi` for `weight == "equal"` on a DataFrame:
net mask rows followed by row-wise normalization. -/
def genWeightedPosiEqual (long short : List (List Bool)) : List (List ℚ) :=
  (List.zipWith (fun lr sr => List.zipWith maskCell lr sr) long short).map
    equalWeightRow

/-- `Position._gen_weighted_posi` for `weight == "equal"` when the factor
was passed as a Series: `isinstance(posi, pd.DataFrame)` is False, so the
normalization block is skipped and the raw net mask is returned. -/
def genPosiEqualSeries (long short : List Bool) : List ℚ :=
  List.zipWith maskCell long short

/-- The weighting scheme argument of `Position`. -/
inductive Weight where
  | equal : Weight
  | value : Weight
  | table : List (List ℚ) → Weight
deriving DecidableEq

/-- `Position._gen_weighted_posi`, all branches.  In the source, the
`"value"` branch assigns only the local names `posi_long` / `posi_short`
(normalized by `uw_posi.abs().sum()`, a column-wise sum) and the
DataFrame-weight branch likewise assigns only `posi_long` / `posi_short`;
neither ever assigns `posi`, so `return posi` raises
`UnboundLocalError`.  The crash is modelled as `none`. -/
def genWeightedPosi (weight : Weight) (long short : List (List Bool)) :
    Option (List (List ℚ)) :=
  match weight with
  | .equal => some (genWeightedPosiEqual long short)
  | .value => none
  | .table _ => none

/-- The full `Position` pipeline for `mode="abs"`, numeric `ls`,
`weight="equal"`: build the masks, then weight them. -/
def positionAbsEqual (factor : Table) (ls : ℚ) : List (List ℚ) :=
  let ms := genPosiAbsNum factor ls
  genWeightedPosiEqual ms.1 ms.2

/-- A pure-rational position table re-read as a factor table (a DataFrame
of finite floats has no NaN cells). -/
def toFactor (t : List (List ℚ)) : Table := t.map (fun r => r.map some)

/-- `Position.__neg__` for `mode="abs"`, numeric `ls`, `weight="equal"`:
the source calls `Position(-self.posi, self.mode, self.ls, self.weight)`,
so the negated position table is fed back through the whole pipeline as a
new factor. -/
def negPositionAbsEqual (posi : List (List ℚ)) (ls : ℚ) : List (List ℚ) :=
  positionAbsEqual (toFactor (posi.map (fun r => r.map (fun v => -v)))) ls

/- ## C6: rank / quantile comparison values (`Position._gen_posi_rela`) -/
/-- The non-missing values of a row (pandas skips NaN when ranking). -/
def rowSomes (r : Row) : List ℚ := r.filterMap id

/-- Number of row values strictly below `v`, as a rational. -/
def countLtQ (vs : List ℚ) (v : ℚ) : ℚ :=
  match vs with
  | [] => 0
  | x :: t => (if x < v then 1 else 0) + countLtQ t v

/-- Number of row values equal to `v`, as a rational. -/
def countEqQ (vs : List ℚ) (v : ℚ) : ℚ :=
  match vs with
  | [] => 0
  | x :: t => (if x = v then 1 else 0) + countEqQ t v

/-- pandas `rank(ascending=True)` of value `v` within the non-missing
values `vs` of its row: ties receive the average of their positions,
so the rank is `#(below v) + (#(equal v) + 1) / 2`. -/
def rankValue (vs : List ℚ) (v : ℚ) : ℚ :=
  countLtQ vs v + (countEqQ vs v + 1) / 2

/-- pandas `rank(axis=1, pct=True, ascending=True)` on one row: each
non-missing cell's average rank divided by the row's count of
non-missing cells; NaN cells stay NaN. -/
def pctRankRow (r : Row) : Row :=
  let vs := rowSomes r
  r.map (Option.map (fun v => rankValue vs v / (vs.length : ℚ)))

/-- The min-max rescaling `_gen_posi_rela` applies in quantile mode:
`(ac - nanmin) / (nanmax - nanmin)` per row.  An all-NaN row has NaN
extrema (every cell stays NaN), and a row whose extrema coincide divides
0 by 0, so every cell becomes NaN — both modelled as `none`. -/
def normalizeRow (r : Row) : Row :=
  match rowSomes r with
  | [] => r.map (fun _ => none)
  | v :: rest =>
      let mn := rest.foldl min v
      let mx := rest.foldl max v
      if mx = mn then r.map (fun _ => none)
      else r.map (Option.map (fun u => (u - mn) / (mx - mn)))

/-- The per-cell values `_gen_posi_rela` compares against the selector in
quantile mode (ascending side, `ac_as`): min-max-rescaled pct ranks. -/
def quantileCompValuesAsc (r : Row) : Row := normalizeRow (pctRankRow r)

/- ## C9: range-spec mini-language (`Position._get_ls_range`) -/
/-- The errors `_get_ls_range` can raise (each a distinct ValueError in
the source). -/
inductive ParseErr where
  | emptySpec : ParseErr
  | tooManyClauses : ParseErr
  | badStart : ParseErr
  | ruleNotSpecified : ParseErr
  | duplicateRule : ParseErr
  | invalidNumericToken : ParseErr
  | multipleTilde : ParseErr
deriving DecidableEq

/-- Python `str.split(sep)` for a one-character separator, on strings
modelled as lists of characters.  Splitting the empty string gives
one empty piece, like Python. -/
def splitOnChar (sep : Char) : List Char → List (List Char)
  | [] => [[]]
  | c :: rest =>
      let r := splitOnChar sep rest
      if c = sep then [] :: r
      else
        match r with
        | [] => [[c]]
        | h :: t => (c :: h) :: t

/-- The body of one clause: split on `~`, convert every token with the
caller-supplied numeric type (conversion runs before the token-count
check, exactly as in the source's list comprehension), reject more than
two tokens, and turn one token into a degenerate point interval.
The final catch-all arm is unreachable (`splitOnChar` never returns an
empty list) but keeps the function total. -/
def parseNodes (num : List Char → Option ℚ) (body : List Char) :
    Except ParseErr (ℚ × ℚ) :=
  let nodes := splitOnChar '~' body
  match nodes.mapM num with
  | none => .error .invalidNumericToken
  | some vs =>
      match vs with
      | [a] => .ok (a, a)
      | [a, b] => .ok (a, b)
      | _ => .error .multipleTilde

/-- The clause loop of `_get_ls_range`: each clause must start with
`l:` or `s:`, must have a nonempty body, must not repeat a direction
already set, and parses its body into a range. -/
def lsRangeGo (num : List Char → Option ℚ) :
    List (List Char) → Option (ℚ × ℚ) → Option (ℚ × ℚ) →
    Except ParseErr (Option (ℚ × ℚ) × Option (ℚ × ℚ))
  | [], l, s => .ok (l, s)
  | rule :: rest, l, s =>
      match rule with
      | 'l' :: ':' :: body =>
          if body = [] then .error .ruleNotSpecified
          else if l.isSome then .error .duplicateRule
          else
            match parseNodes num body with
            | .error e => .error e
            | .ok rg => lsRangeGo num rest (some rg) s
      | 's' :: ':' :: body =>
          if body = [] then .error .ruleNotSpecified
          else if s.isSome then .error .duplicateRule
          else
            match parseNodes num body with
            | .error e => .error e
            | .ok rg => lsRangeGo num rest l (some rg)
      | _ => .error .badStart

/-- `Position._get_ls_range`: reject the empty spec, split on `_`,
reject more than two clauses, then run the clause loop starting from
"no rule" for both directions.  A direction never mentioned stays
`none` in the successful result. -/
def getLsRange (num : List Char → Option ℚ) (ls : List Char) :
    Except ParseErr (Option (ℚ × ℚ) × Option (ℚ × ℚ)) :=
  if ls = [] then .error .emptySpec
  else
    let rules := splitOnChar '_' ls
    if rules.length > 2 then .error .tooManyClauses
    else lsRangeGo num rules none none

/- ## Net-worth simulator (`NetWorth`) -/
/-- `DataFrame.first_valid_index()`: index of the first row with any
non-missing entry. -/
def firstValidIdx (t : Table) : Option ℕ :=
  t.findIdx? (fun r => r.any (fun c => c.isSome))

/-- `DataFrame.last_valid_index()`: index of the last row with any
non-missing entry. -/
def lastValidIdx (t : Table) : Option ℕ :=
  match (t.reverse).findIdx? (fun r => r.any (fun c => c.isSome)) with
  | some k => some (t.length - 1 - k)
  | none => none

/-- `df.loc[start:end]` with `start` / `end` the position table's first
and last valid indices: when the position table has a valid row, keep
rows `a..b` inclusive; when every row is all-NaN, `first_valid_index()`
is None and `.loc[None:None]` keeps every row. -/
def sliceWindow (posi t : Table) : Table :=
  match firstValidIdx posi, lastValidIdx posi with
  | some a, some b => (t.drop a).take (b - a + 1)
  | _, _ => t

/-- One forward-fill step of pandas `pct_change` (fill_method="pad"):
keep the current price if present, else carry the previous padded value. -/
def padCell (c prev : Cell) : Cell :=
  match c with
  | some v => some v
  | none => prev

/-- One `pct_change` cell: current padded price over previous padded
price, minus 1; NaN whenever either is missing. -/
def retCell (cur prev : Cell) : Cell :=
  match cur, prev with
  | some c, some p => some (c / p - 1)
  | _, _ => none

/-- Row-by-row `pct_change` with forward fill, carrying the padded
previous row; the first row has no predecessor, so it is all NaN. -/
def pctChangeGo (prev : Row) : Table → Table
  | [] => []
  | r :: rs =>
      let cur := List.zipWith padCell r prev
      List.zipWith retCell cur prev :: pctChangeGo cur rs

/-- `price.pct_change()` on an n-column window. -/
def pctChange (n : ℕ) (t : Table) : Table :=
  pctChangeGo (List.replicate n none) t

/-- `fillna(0)` on one row. -/
def fillRow (r : Row) : List ℚ := r.map (fun c => c.getD 0)

/-- `position.shift().fillna(0)`: each row becomes the previous row with
NaN as 0; the first row (no predecessor) becomes all zeros. -/
def shiftFill (n : ℕ) (t : Table) : List (List ℚ) :=
  match t with
  | [] => []
  | _ :: _ => List.replicate n 0 :: (t.dropLast).map fillRow

/-- The row-difference loop of `np.diff(..., axis=0)`. -/
def diffGo (prev : List ℚ) : List (List ℚ) → List (List ℚ)
  | [] => []
  | r :: rs => List.zipWith (fun x y => x - y) r prev :: diffGo r rs

/-- `np.vstack([np.zeros(...), np.diff(posi_shifted, axis=0)])`. -/
def diffRows (n : ℕ) : List (List ℚ) → List (List ℚ)
  | [] => []
  | r :: rs => List.replicate n 0 :: diffGo r rs

/-- One cell of `net_return = p_return * posi_shifted - tran_cost` with
`tran_cost = np.abs(posi_change) * fee`: NaN exactly where the price
return is NaN (numpy `nan * x - y` is nan; the shifted position and its
change are never NaN after `fillna(0)`). -/
def netRetCell (fee : ℚ) (ret : Cell) (posi chg : ℚ) : Cell :=
  match ret with
  | some r => some (r * posi - |chg| * fee)
  | none => none

/-- The `net_return` table. -/
def netReturnRows (fee : ℚ) (ret : Table) (sh chg : List (List ℚ)) :
    Table :=
  List.zipWith3 (fun r s c => List.zipWith3 (netRetCell fee) r s c)
    ret sh chg

/-- The running product of `.cumprod()`. -/
def cumprodGo (acc : ℚ) : List ℚ → List ℚ
  | [] => []
  | x :: xs => (acc * x) :: cumprodGo (acc * x) xs

/-- numpy `.cumprod()`. -/
def cumprod (xs : List ℚ) : List ℚ := cumprodGo 1 xs

/-- The per-date sums `np.nansum(net_return, axis=1)` of
`_calc_networth_vector` over the restricted window. -/
def netReturnSums (n : ℕ) (price posi : Table) (fee : ℚ) : List ℚ :=
  let pr := sliceWindow posi price
  let po := sliceWindow posi posi
  let ret := pctChange n pr
  let sh := shiftFill n po
  let chg := diffRows n sh
  (netReturnRows fee ret sh chg).map nanSumRow

/-- `NetWorth._calc_networth_vector`:
`(np.nansum(net_return, axis=1) + 1).cumprod()` over the window. -/
def calcNetworthVector (n : ℕ) (price posi : Table) (fee : ℚ) : List ℚ :=
  cumprod ((netReturnSums n price posi fee).map (fun s => s + 1))

/-- `replace(0, np.nan)` on one cell. -/
def cleanseCell (c : Cell) : Cell :=
  match c with
  | some v => if v = 0 then none else some v
  | none => none

/-- `replace(0, np.nan)` on one row. -/
def cleanseRow (r : Row) : Row := r.map cleanseCell

/-- One share holding `((last_asset * posi) / last_price).fillna(0)`:
zero when the lagged position or the previous price is missing. -/
def holdCell (lastAsset : ℚ) (p lp : Cell) : ℚ :=
  match p, lp with
  | some pv, some lpv => lastAsset * pv / lpv
  | _, _ => 0

/-- One price-move contribution `hold * (price - last_price)`: NaN when
either price is missing (dropped by the skipna sum). -/
def contribCell (hold : ℚ) (cur lp : Cell) : Cell :=
  match cur, lp with
  | some c, some l => some (hold * (c - l))
  | _, _ => none

/-- One transaction cost `np.abs(hold - last_hold) * last_price * fee`:
NaN when the previous price is missing (dropped by the skipna sum). -/
def tranCell (fee hold lastHold : ℚ) (lp : Cell) : Cell :=
  match lp with
  | some l => some (|hold - lastHold| * l * fee)
  | none => none

/-- The date loop of `_calc_networth_progress`: walks over pairs of
(current price row, lagged cleansed position row), carrying the previous
price row, the running net worth and the previous share holdings. -/
def progressGo (fee : ℚ) : Row → ℚ → List ℚ → List (Row × Row) → List ℚ
  | _, _, _, [] => []
  | lp, la, lh, (pricer, posir) :: rest =>
      let hold := List.zipWith (holdCell la) posir lp
      let contrib := nanSumRow (List.zipWith3 contribCell hold pricer lp)
      let tran := nanSumRow (List.zipWith3 (tranCell fee) hold lh lp)
      let asset := la + contrib - tran
      asset :: progressGo fee pricer asset hold rest

/-- `NetWorth._calc_networth_progress`: net worth starts at 1 on the
first window date; each later date applies the holdings bought at the
previous date's prices from the position lagged one period
(`shift(1)` then `replace(0, np.nan)`).  An empty window is modelled as
the empty series (the source would fail on `iloc[0]`). -/
def calcNetworthProgress (n : ℕ) (price posi : Table) (fee : ℚ) :
    List ℚ :=
  let pr := sliceWindow posi price
  let po := sliceWindow posi posi
  match pr with
  | [] => []
  | p0 :: prest =>
      1 :: progressGo fee p0 1 (List.replicate n 0)
        (prest.zip ((po.dropLast).map cleanseRow))

/-- The `method` argument of `NetWorth`. -/
inductive Method where
  | vector : Method
  | progress : Method
deriving DecidableEq

/-- `NetWorth._calc_networth`. -/
def calcNetworth (n : ℕ) (m : Method) (price posi : Table) (fee : ℚ) :
    List ℚ :=
  match m with
  | .vector => calcNetworthVector n price posi fee
  | .progress => calcNetworthProgress n price posi fee

/-- `NetWorth._check_data_match` on one date: a non-missing, nonzero
position cell requires a non-missing price cell (the dropna/replace(0)
steps of the source make zero and NaN positions unconstrained).  Tables
are label-aligned, so the column-subset and index-subset checks of the
source hold by construction. -/
def dataMatchRow (por prr : Row) : Bool :=
  (por.zip prr).all (fun pc =>
    match pc.1 with
    | some v => if v = 0 then true else pc.2.isSome
    | none => true)

/-- `NetWorth._check_data_match` over the whole table. -/
def checkDataMatch (price posi : Table) : Bool :=
  (posi.zip price).all (fun rp => dataMatchRow rp.1 rp.2)

/-- `NetWorth._check_posi_legal`: positions are legal when the check is
skipped, or when no date's gross exposure
`position.abs().sum(axis=1)` exceeds 1.00000001. -/
def checkPosiLegal (ignore : Bool) (posi : Table) : Bool :=
  ignore || !(posi.any (fun r => decide (sumAbsRow r > 1.00000001)))

/-- The two assertion failures of `NetWorth.__init__`. -/
inductive NWErr where
  | dataMismatch : NWErr
  | illegalExposure : NWErr
deriving DecidableEq

/-- `NetWorth.__init__`: assert the data match, then assert legal
exposure (skippable via `ignore_posi_exceed`), then compute the
net-worth series with the chosen strategy. -/
def netWorthInit (n : ℕ) (price posi : Table) (fee : ℚ) (ignore : Bool)
    (m : Method) : Except NWErr (List ℚ) :=
  if checkDataMatch price posi = false then .error .dataMismatch
  else if checkPosiLegal ignore posi = false then .error .illegalExposure
  else .ok (calcNetworth n m price posi fee)

/-- The net-worth series as a partial function of the global date index:
`some` on window dates, `none` outside the window. -/
def networthAtDate (n : ℕ) (m : Method) (price posi : Table) (fee : ℚ)
    (d : ℕ) : Option ℚ :=
  let s := match firstValidIdx posi with | some a => a | none => 0
  if s ≤ d then (calcNetworth n m price posi fee)[d - s]? else none

/-- The vector pipeline applied to already-sliced tables (the body of
`_calc_networth_vector` after `.loc[start:end]`). -/
def vectorCore (n : ℕ) (fee : ℚ) (pr po : Table) : List ℚ :=
  cumprod ((((netReturnRows fee (pctChange n pr) (shiftFill n po)
    (diffRows n (shiftFill n po))).map nanSumRow).map (fun s => s + 1)))

/-- The progress pipeline applied to already-sliced tables (the body of
`_calc_networth_progress` after `.loc[start:end]`). -/
def progressCore (n : ℕ) (fee : ℚ) (pr po : Table) : List ℚ :=
  match pr with
  | [] => []
  | p0 :: prest =>
      1 :: progressGo fee p0 1 (List.replicate n 0)
        (prest.zip ((po.dropLast).map cleanseRow))

/- ## C1: vector / progress equivalence at zero fee -/
/-- Forward-fill agreement: wherever the raw previous price row has a
value, the padded previous row carries the same value. -/
def padAgree (a b : Cell) : Prop := ∀ v : ℚ, a = some v → b = some v

/-- The data-match condition on one cell pair: a non-missing nonzero
position requires a present price. -/
def dmCell (q p : Cell) : Prop :=
  ∀ v : ℚ, q = some v → v ≠ 0 → ∃ u : ℚ, p = some u

/-- The data-match condition threaded along the simulation: the lagged
position row used at each step is matched against the price row of the
previous date. -/
def dmChain (raw : Row) (prRows : Table) (qs : Table) : Prop :=
  match qs with
  | [] => True
  | q :: qs2 =>
      List.Forall₂ dmCell q raw ∧
        (match prRows with
          | [] => True
          | p :: ps => dmChain p ps qs2)

/-- C3: for every pair of selection masks, constructing the weighted
position with the "value" scheme (or with an explicit weight table)
crashes — `_gen_weighted_posi` never assigns `posi` in those branches,
so `return posi` raises `UnboundLocalError`, modelled as `none`.  The
claim says construction succeeds; the code is a slip. -/
theorem c3_value_weight_crash (long short : List (List Bool))
    (w : List (List ℚ)) :
    genWeightedPosi Weight.value long short = none ∧
    genWeightedPosi (Weight.table w) long short = none :=
  ⟨rfl, rfl⟩

/-- C7: at factor `[[3, 1]]`, mode "abs", selector 2, equal weight, the
built position table is `[[1/2, -1/2]]`, but `__neg__` produces
`[[-1/2, -1/2]]` instead of the elementwise negation `[[-1/2, 1/2]]`:
the constructor re-derives masks from `-posi` as a fresh factor instead
of wrapping the negated exposure table. -/
theorem c7_neg_eval :
    positionAbsEqual [[some 3, some 1]] 2 = [[1/2, -1/2]] ∧
    negPositionAbsEqual (positionAbsEqual [[some 3, some 1]] 2) 2
      = [[-1/2, -1/2]] ∧
    negPositionAbsEqual (positionAbsEqual [[some 3, some 1]] 2) 2
      ≠ (positionAbsEqual [[some 3, some 1]] 2).map
          (fun r => r.map (fun v => -v)) := by
  have h1 : positionAbsEqual [[some 3, some 1]] 2 = [[1/2, -1/2]] := by
    norm_num [positionAbsEqual, genPosiAbsNum, genWeightedPosiEqual,
      equalWeightRow, maskCell, cellGe, cellLe, sumAbsList]
  have h2 : negPositionAbsEqual [[1/2, -1/2]] 2 = [[-1/2, -1/2]] := by
    norm_num [negPositionAbsEqual, positionAbsEqual, toFactor, genPosiAbsNum,
      genWeightedPosiEqual, equalWeightRow, maskCell, cellGe, cellLe,
      sumAbsList]
  refine ⟨h1, h1 ▸ h2, ?_⟩
  rw [h1, h2]
  norm_num

/- ## C2: equal-weight row invariant -/
theorem sumAbsList_nonneg (l : List ℚ) : 0 ≤ sumAbsList l := by
  induction l with
  | nil => simp [sumAbsList]
  | cons a t ih =>
      simp only [sumAbsList, List.map_cons, List.sum_cons]
      exact add_nonneg (abs_nonneg a) ih

theorem sumAbsList_map_div (l : List ℚ) (s : ℚ) :
    sumAbsList (l.map (fun x => x / s)) = sumAbsList l / |s| := by
  induction l with
  | nil => simp [sumAbsList]
  | cons a t ih =>
      simp only [sumAbsList, List.map_cons, List.sum_cons] at ih ⊢
      rw [ih, abs_div, add_div]

theorem sumAbsList_eq_zero_of_all_zero (l : List ℚ)
    (h : ∀ x ∈ l, x = 0) : sumAbsList l = 0 := by
  induction l with
  | nil => rfl
  | cons a t ih =>
      have ha := h a (by simp)
      have ht := ih (fun x hx => h x (by simp [hx]))
      simp only [sumAbsList, List.map_cons, List.sum_cons] at ht ⊢
      rw [ha, ht]
      simp

theorem genPosiEqualSeries_vals (long short : List Bool) :
    ∀ x ∈ genPosiEqualSeries long short, x = 0 ∨ x = 1 ∨ x = -1 := by
  induction long generalizing short with
  | nil => simp [genPosiEqualSeries]
  | cons a t ih =>
      cases short with
      | nil => simp [genPosiEqualSeries]
      | cons b u =>
          intro x hx
          simp only [genPosiEqualSeries, List.zipWith_cons_cons,
            List.mem_cons] at hx
          rcases hx with h | h
          · subst h; cases a <;> cases b <;> simp [maskCell]
          · exact ih u x h

/-- C2: for every Position built with the "equal" weighting scheme, every
row of the weighted position table with at least one nonzero entry has
absolute values summing to 1 (within 1e-8; the sum is exactly 1 in exact
arithmetic), and every row whose net selection mask is all zero comes out
all zero (the division-by-NaN is converted to 0 by fillna, never left as
NaN).  The first conjunct covers the DataFrame path of
`_gen_weighted_posi` (row-wise normalization); the second covers the
Series path, where the normalization block is skipped and cells are the
raw net masks in {-1, 0, 1}. -/
theorem c2_equal_weight_row_invariant :
    (∀ (long short : List (List Bool)) (i : ℕ) (lr sr : List Bool)
       (ri : List ℚ),
      long[i]? = some lr → short[i]? = some sr →
      (genWeightedPosiEqual long short)[i]? = some ri →
      ((∃ x ∈ ri, x ≠ 0) → |sumAbsList ri - 1| ≤ 1/100000000) ∧
      ((∀ x ∈ List.zipWith maskCell lr sr, x = 0) → ∀ x ∈ ri, x = 0)) ∧
    (∀ (long short : List Bool), ∀ x ∈ genPosiEqualSeries long short,
      x ≠ 0 → |(|x| : ℚ) - 1| ≤ 1/100000000) := by
  constructor
  · intro long short i lr sr ri hl hs hri
    have hmap : (genWeightedPosiEqual long short)[i]?
        = ((List.zipWith (fun lr sr => List.zipWith maskCell lr sr)
            long short)[i]?).map equalWeightRow := by
      simp [genWeightedPosiEqual]
    rw [hmap] at hri
    rcases Option.map_eq_some'.mp hri with ⟨base, hbase, hew⟩
    rcases (List.getElem?_zipWith_eq_some).mp hbase with ⟨x, y, hx, hy, hxy⟩
    rw [hl] at hx
    rw [hs] at hy
    cases hx
    cases hy
    subst hxy
    subst hew
    by_cases hz : sumAbsList (List.zipWith maskCell lr sr) = 0
    · constructor
      · intro hex
        exfalso
        rcases hex with ⟨x, hxm, hx0⟩
        apply hx0
        simp only [equalWeightRow, hz, if_true] at hxm
        simp only [List.mem_map] at hxm
        exact hxm.choose_spec.2.symm
      · intro _
        intro x hxm
        simp only [equalWeightRow, hz, if_true] at hxm
        simp only [List.mem_map] at hxm
        exact hxm.choose_spec.2.symm
    · constructor
      · intro _
        have habs : |sumAbsList (List.zipWith maskCell lr sr)|
            = sumAbsList (List.zipWith maskCell lr sr) :=
          abs_of_nonneg (sumAbsList_nonneg _)
        rw [equalWeightRow]
        simp only [hz, if_false]
        rw [sumAbsList_map_div, habs, div_self hz]
        norm_num
      · intro hall
        exact absurd (sumAbsList_eq_zero_of_all_zero _ hall) hz
  · intro long short x hx hx0
    rcases genPosiEqualSeries_vals long short x hx with h | h | h
    · exact absurd h hx0
    · subst h; norm_num
    · subst h; norm_num

/-- Witness for C2: concrete instantiation.  Masks `[[true, false]]`,
`[[false, false]]` yield position `[[1, 0]]`, whose row sums absolute
values to 1; and the Series cell `-1` from a short selection has
absolute value 1. -/
theorem c2_equal_weight_row_invariant_witness :
    |sumAbsList [(1 : ℚ), 0] - 1| ≤ 1/100000000 ∧
    |(|(-1 : ℚ)| : ℚ) - 1| ≤ 1/100000000 := by
  constructor
  · refine (c2_equal_weight_row_invariant.1 [[true, false]] [[false, false]]
      0 [true, false] [false, false] [1, 0] rfl rfl ?_).1 ?_
    · norm_num [genWeightedPosiEqual, equalWeightRow, maskCell, sumAbsList]
    · exact ⟨1, by norm_num⟩
  · refine c2_equal_weight_row_invariant.2 [false] [true] (-1) ?_ (by norm_num)
    norm_num [genPosiEqualSeries, maskCell]

theorem foldl_min_le_init (l : List ℚ) (v : ℚ) : l.foldl min v ≤ v := by
  induction l generalizing v with
  | nil => simp
  | cons a t ih =>
      simpa using le_trans (ih (min v a)) (min_le_left v a)

theorem init_le_foldl_max (l : List ℚ) (v : ℚ) : v ≤ l.foldl max v := by
  induction l generalizing v with
  | nil => simp
  | cons a t ih =>
      simpa using le_trans (le_max_left v a) (ih (max v a))

theorem foldl_min_le_mem (l : List ℚ) (x : ℚ) (hx : x ∈ l) :
    ∀ v : ℚ, l.foldl min v ≤ x := by
  induction l with
  | nil => simp at hx
  | cons a t ih =>
      intro v
      rcases List.mem_cons.mp hx with h | h
      · subst h
        simpa using le_trans (foldl_min_le_init t (min v x)) (min_le_right v x)
      · simpa using ih h (min v a)

theorem mem_le_foldl_max (l : List ℚ) (x : ℚ) (hx : x ∈ l) :
    ∀ v : ℚ, x ≤ l.foldl max v := by
  induction l with
  | nil => simp at hx
  | cons a t ih =>
      intro v
      rcases List.mem_cons.mp hx with h | h
      · subst h
        simpa using le_trans (le_max_right v x) (init_le_foldl_max t (max v x))
      · simpa using ih h (max v a)

theorem foldl_min_mem (l : List ℚ) (v : ℚ) :
    l.foldl min v = v ∨ l.foldl min v ∈ l := by
  induction l generalizing v with
  | nil => simp
  | cons a t ih =>
      rcases ih (min v a) with h | h
      · rcases min_choice v a with hv | hv
        · left; simpa [hv] using h
        · right; simp only [List.foldl_cons]
          rw [h, hv]
          simp
      · right
        simp only [List.foldl_cons]
        exact List.mem_cons_of_mem a h

theorem foldl_max_mem (l : List ℚ) (v : ℚ) :
    l.foldl max v = v ∨ l.foldl max v ∈ l := by
  induction l generalizing v with
  | nil => simp
  | cons a t ih =>
      rcases ih (max v a) with h | h
      · rcases max_choice v a with hv | hv
        · left; simpa [hv] using h
        · right; simp only [List.foldl_cons]
          rw [h, hv]
          simp
      · right
        simp only [List.foldl_cons]
        exact List.mem_cons_of_mem a h

/-- C6 (amended): in quantile mode the values `_gen_posi_rela` compares
against the selector are not the pct ranks `rank / count` themselves but
their row-wise min-max rescaling `(r - rmin) / (rmax - rmin)`: every
defined value lies in the closed interval [0, 1], and whenever any value
is defined at all, the maximum-ranked cell sits at exactly 1 and the
minimum-ranked cell at exactly 0 (rows whose defined pct ranks all
coincide produce only NaN and select nothing). -/
theorem c6_quantile_normalized (r : Row) :
    (∀ v : ℚ, some v ∈ quantileCompValuesAsc r → 0 ≤ v ∧ v ≤ 1) ∧
    ((∃ v : ℚ, some v ∈ quantileCompValuesAsc r) →
      some (1 : ℚ) ∈ quantileCompValuesAsc r ∧
      some (0 : ℚ) ∈ quantileCompValuesAsc r) := by
  unfold quantileCompValuesAsc
  set q := pctRankRow r with hq
  rcases hs : rowSomes q with _ | ⟨v, rest⟩
  · constructor
    · intro w hw
      simp only [normalizeRow, hs, List.mem_map] at hw
      exact absurd hw.choose_spec.2 (by simp)
    · intro ⟨w, hw⟩
      simp only [normalizeRow, hs, List.mem_map] at hw
      exact absurd hw.choose_spec.2 (by simp)
  · by_cases hmm : rest.foldl max v = rest.foldl min v
    · constructor
      · intro w hw
        simp only [normalizeRow, hs, hmm, if_true, List.mem_map] at hw
        exact absurd hw.choose_spec.2 (by simp)
      · intro ⟨w, hw⟩
        simp only [normalizeRow, hs, hmm, if_true, List.mem_map] at hw
        exact absurd hw.choose_spec.2 (by simp)
    · have hmnmx : rest.foldl min v ≤ rest.foldl max v :=
        le_trans (foldl_min_le_init rest v) (init_le_foldl_max rest v)
      have hlt : rest.foldl min v < rest.foldl max v :=
        lt_of_le_of_ne hmnmx (fun h => hmm h.symm)
      have hbound : ∀ u ∈ rowSomes q,
          rest.foldl min v ≤ u ∧ u ≤ rest.foldl max v := by
        intro u hu
        rw [hs] at hu
        rcases List.mem_cons.mp hu with h | h
        · subst h
          exact ⟨foldl_min_le_init rest u, init_le_foldl_max rest u⟩
        · exact ⟨foldl_min_le_mem rest u h v, mem_le_foldl_max rest u h v⟩
      constructor
      · intro w hw
        simp only [normalizeRow, hs, hmm, if_false, List.mem_map] at hw
        rcases hw with ⟨c, hc, hcw⟩
        rcases c with _ | u
        · simp at hcw
        · simp only [Option.map_some', Option.some.injEq] at hcw
          have hu : u ∈ rowSomes q := by
            simp only [rowSomes, List.mem_filterMap]
            exact ⟨some u, hc, rfl⟩
          rcases hbound u hu with ⟨h1, h2⟩
          subst hcw
          constructor
          · exact div_nonneg (by linarith) (by linarith)
          · rw [div_le_one (by linarith)]
            linarith
      · intro _
        have hmx_mem : some (rest.foldl max v) ∈ q := by
          have hm : rest.foldl max v ∈ rowSomes q := by
            rw [hs]
            rcases foldl_max_mem rest v with h | h
            · rw [h]; simp
            · exact List.mem_cons_of_mem v h
          simp only [rowSomes, List.mem_filterMap] at hm
          rcases hm with ⟨c, hc, hcm⟩
          simp only [id_eq] at hcm
          subst hcm
          exact hc
        have hmn_mem : some (rest.foldl min v) ∈ q := by
          have hm : rest.foldl min v ∈ rowSomes q := by
            rw [hs]
            rcases foldl_min_mem rest v with h | h
            · rw [h]; simp
            · exact List.mem_cons_of_mem v h
          simp only [rowSomes, List.mem_filterMap] at hm
          rcases hm with ⟨c, hc, hcm⟩
          simp only [id_eq] at hcm
          subst hcm
          exact hc
        constructor
        · simp only [normalizeRow, hs, hmm, if_false, List.mem_map]
          refine ⟨some (rest.foldl max v), hmx_mem, ?_⟩
          simp only [Option.map_some', Option.some.injEq]
          exact div_self (by linarith)
        · simp only [normalizeRow, hs, hmm, if_false, List.mem_map]
          refine ⟨some (rest.foldl min v), hmn_mem, ?_⟩
          simp only [Option.map_some', Option.some.injEq]
          rw [sub_self, zero_div]

theorem rowSomes_nil : rowSomes [] = [] := rfl

theorem rowSomes_cons_some (v : ℚ) (r : Row) :
    rowSomes (some v :: r) = v :: rowSomes r := rfl

theorem rowSomes_cons_none (r : Row) :
    rowSomes (none :: r) = rowSomes r := rfl

theorem c6_concrete_pct :
    pctRankRow [some 10, some 20] = [some (1/2 : ℚ), some 1] := by
  simp only [pctRankRow, rowSomes_cons_some, rowSomes_nil]
  norm_num [rankValue, countLtQ, countEqQ]

theorem c6_concrete_comp :
    quantileCompValuesAsc [some 10, some 20] = [some (0 : ℚ), some 1] := by
  show normalizeRow (pctRankRow [some 10, some 20]) = [some (0 : ℚ), some 1]
  rw [c6_concrete_pct]
  simp only [normalizeRow, rowSomes_cons_some, rowSomes_nil]
  norm_num [max_def, min_def]

/-- Witness for C6: at the row `[10, 20]` the compared values are
`[0, 1]`; both are in [0, 1], 1 and 0 are attained. -/
theorem c6_quantile_normalized_witness :
    ((0 : ℚ) ≤ 0 ∧ (0 : ℚ) ≤ 1) ∧
    (some (1 : ℚ) ∈ quantileCompValuesAsc [some 10, some 20] ∧
     some (0 : ℚ) ∈ quantileCompValuesAsc [some 10, some 20]) := by
  have h0 : some (0 : ℚ) ∈ quantileCompValuesAsc [some 10, some 20] := by
    rw [c6_concrete_comp]
    simp
  exact ⟨(c6_quantile_normalized [some 10, some 20]).1 0 h0,
    (c6_quantile_normalized [some 10, some 20]).2 ⟨0, h0⟩⟩

/-- Counterexample to C6 as stated: for the row `[10, 20]` the claim
predicts compared values `rank / count = [1/2, 1]`, but the code
min-max rescales them to `[0, 1]`; in particular the value 0 is compared
against the selector, which also falsifies the claimed range (0, 1]. -/
theorem c6_counterexample :
    pctRankRow [some 10, some 20] = [some (1/2 : ℚ), some 1] ∧
    quantileCompValuesAsc [some 10, some 20] = [some (0 : ℚ), some 1] ∧
    quantileCompValuesAsc [some 10, some 20]
      ≠ pctRankRow [some 10, some 20] := by
  refine ⟨c6_concrete_pct, c6_concrete_comp, ?_⟩
  rw [c6_concrete_pct, c6_concrete_comp]
  norm_num

theorem splitOnChar_eq_single (sep : Char) (s : List Char) (h : sep ∉ s) :
    splitOnChar sep s = [s] := by
  induction s with
  | nil => rfl
  | cons c rest ih =>
      have hc : ¬ (c = sep) := fun hce => h (hce ▸ List.mem_cons_self c rest)
      have hr : splitOnChar sep rest = [rest] :=
        ih (fun hm => h (List.mem_cons_of_mem c hm))
      simp only [splitOnChar, hr, if_neg hc]

theorem splitOnChar_append (sep : Char) (xs ys : List Char)
    (h : sep ∉ xs) :
    splitOnChar sep (xs ++ sep :: ys) = xs :: splitOnChar sep ys := by
  induction xs with
  | nil => simp [splitOnChar]
  | cons c xs ih =>
      have hc : ¬ (c = sep) := fun hce => h (hce ▸ List.mem_cons_self c xs)
      have hr := ih (fun hm => h (List.mem_cons_of_mem c hm))
      simp only [List.cons_append, splitOnChar, List.append_eq, hr, if_neg hc]

/-- C9: for any numeric bounds accepted by the caller-supplied numeric
conversion, a spec `l:a~b` parses to the long range `(a, b)` in raw
parsed order with no short rule, and a spec `s:c` parses to the
degenerate short range `(c, c)` with no long rule; the absent direction
is reported as "no rule" (`none`), not as an error.  The token strings
may be any separator-free strings the numeric parser accepts. -/
theorem c9_range_roundtrip (num : List Char → Option ℚ)
    (sa sb sc : List Char) (a b c : ℚ)
    (hau : ('_' : Char) ∉ sa) (hat : ('~' : Char) ∉ sa)
    (hbu : ('_' : Char) ∉ sb) (hbt : ('~' : Char) ∉ sb)
    (hcu : ('_' : Char) ∉ sc) (hct : ('~' : Char) ∉ sc)
    (hc0 : sc ≠ [])
    (hna : num sa = some a) (hnb : num sb = some b)
    (hnc : num sc = some c) :
    getLsRange num ('l' :: ':' :: (sa ++ '~' :: sb))
      = .ok (some (a, b), none) ∧
    getLsRange num ('s' :: ':' :: sc) = .ok (none, some (c, c)) := by
  constructor
  · have hnu : ('_' : Char) ∉ ('l' :: ':' :: (sa ++ '~' :: sb)) := by
      simp only [List.mem_cons, List.mem_append]
      push_neg
      refine ⟨by decide, by decide, hau, by decide, hbu⟩
    have hsplit := splitOnChar_eq_single '_' _ hnu
    have hbody : splitOnChar '~' (sa ++ '~' :: sb) = [sa, sb] := by
      rw [splitOnChar_append '~' sa sb hat, splitOnChar_eq_single '~' sb hbt]
    have hbne : ¬ (sa ++ '~' :: sb) = [] := by
      cases sa <;> simp
    have hp : parseNodes num (sa ++ '~' :: sb) = .ok (a, b) := by
      unfold parseNodes
      rw [hbody]
      simp only [List.mapM_cons, List.mapM_nil, hna, hnb]
      rfl
    simp only [getLsRange, if_neg (by simp : ¬ ('l' :: ':' ::
      (sa ++ '~' :: sb)) = []), hsplit]
    simp only [List.length_singleton, lsRangeGo, if_neg hbne, hp]
    norm_num [lsRangeGo]
  · have hnu : ('_' : Char) ∉ ('s' :: ':' :: sc) := by
      simp only [List.mem_cons]
      push_neg
      refine ⟨by decide, by decide, hcu⟩
    have hsplit := splitOnChar_eq_single '_' _ hnu
    have hbody := splitOnChar_eq_single '~' sc hct
    have hp : parseNodes num sc = .ok (c, c) := by
      unfold parseNodes
      rw [hbody]
      simp only [List.mapM_cons, List.mapM_nil, hnc]
      rfl
    have hcne : ¬ sc = [] := hc0
    simp only [getLsRange, if_neg (by simp : ¬ ('s' :: ':' :: sc) = []),
      hsplit]
    simp only [List.length_singleton, lsRangeGo, if_neg hcne, hp]
    norm_num [lsRangeGo]

/-- Witness for C9: with a numeric parser accepting the tokens 1 and 2,
the spec `l:1~2` parses to long range `(1, 2)` and no short rule, and
`s:1` to short range `(1, 1)` and no long rule. -/
theorem c9_range_roundtrip_witness :
    getLsRange
      (fun s => if s = ['1'] then some (1 : ℚ)
                else if s = ['2'] then some 2 else none)
      ['l', ':', '1', '~', '2'] = .ok (some (1, 2), none) ∧
    getLsRange
      (fun s => if s = ['1'] then some (1 : ℚ)
                else if s = ['2'] then some 2 else none)
      ['s', ':', '1'] = .ok (none, some (1, 1)) := by
  exact c9_range_roundtrip
    (fun s => if s = ['1'] then some (1 : ℚ)
              else if s = ['2'] then some 2 else none)
    ['1'] ['2'] ['1'] 1 2 1
    (by decide) (by decide) (by decide) (by decide) (by decide) (by decide)
    (by decide) (by simp) (by simp) (by simp)

/- ## C10: start normalization -/
theorem nanSumRow_cons_none (r : Row) :
    nanSumRow (none :: r) = nanSumRow r := rfl

theorem nanSumRow_cons_some (v : ℚ) (r : Row) :
    nanSumRow (some v :: r) = v + nanSumRow r := by
  simp [nanSumRow]

theorem zipWith_retCell_rep_none (cur : Row) (m : ℕ) :
    ∀ x ∈ List.zipWith retCell cur (List.replicate m none), x = none := by
  induction cur generalizing m with
  | nil => simp
  | cons a t ih =>
      cases m with
      | zero => simp
      | succ k =>
          intro x hx
          simp only [List.replicate_succ, List.zipWith_cons_cons,
            List.mem_cons] at hx
          rcases hx with h | h
          · subst h
            cases a <;> rfl
          · exact ih k x h

theorem nanSumRow_netRet_all_none (fee : ℚ) (r : Row) (s c : List ℚ)
    (h : ∀ x ∈ r, x = none) :
    nanSumRow (List.zipWith3 (netRetCell fee) r s c) = 0 := by
  induction r generalizing s c with
  | nil => simp [List.zipWith3, nanSumRow]
  | cons a t ih =>
      cases s with
      | nil => simp [List.zipWith3, nanSumRow]
      | cons b u =>
          cases c with
          | nil => simp [List.zipWith3, nanSumRow]
          | cons d v =>
              have ha : a = none := h a (by simp)
              subst ha
              simp only [List.zipWith3]
              rw [show netRetCell fee none b d = none from rfl,
                nanSumRow_cons_none]
              exact ih u v (fun x hx => h x (by simp [hx]))

theorem sliceWindow_length (posi t1 t2 : Table)
    (h : t1.length = t2.length) :
    (sliceWindow posi t1).length = (sliceWindow posi t2).length := by
  unfold sliceWindow
  cases firstValidIdx posi <;> cases lastValidIdx posi <;>
    simp [List.length_take, List.length_drop, h]

/-- C10: for every accepted input whose restricted window is nonempty,
the net-worth series of either strategy begins at exactly 1, whatever
the magnitudes of prices and positions: the vector strategy's first
price return row is all NaN so its first compounding factor is
`nansum(...) + 1 = 1`, and the sequential strategy assigns
`nworth.iloc[0] = 1` outright. -/
theorem c10_start_at_one (n : ℕ) (m : Method) (price posi : Table)
    (fee : ℚ) (hlen : price.length = posi.length)
    (hne : sliceWindow posi price ≠ []) :
    (calcNetworth n m price posi fee).head? = some 1 := by
  cases m with
  | progress =>
      rcases hpr : sliceWindow posi price with _ | ⟨p0, prest⟩
      · exact absurd hpr hne
      · simp [calcNetworth, calcNetworthProgress, hpr]
  | vector =>
      have hpo : sliceWindow posi posi ≠ [] := by
        intro h0
        apply hne
        have hl := sliceWindow_length posi price posi hlen
        rw [h0] at hl
        exact List.length_eq_zero.mp (by simpa using hl)
      rcases hpr : sliceWindow posi price with _ | ⟨p0, prest⟩
      · exact absurd hpr hne
      rcases hpo2 : sliceWindow posi posi with _ | ⟨q0, qrest⟩
      · exact absurd hpo2 hpo
      simp only [calcNetworth, calcNetworthVector, netReturnSums, hpr, hpo2,
        pctChange, pctChangeGo, shiftFill, diffRows, netReturnRows,
        List.zipWith3, List.map_cons, cumprod, cumprodGo, List.head?_cons]
      rw [nanSumRow_netRet_all_none fee _ _ _
        (zipWith_retCell_rep_none (List.zipWith padCell p0
          (List.replicate n none)) n)]
      norm_num

/-- Witness for C10: a concrete one-instrument run (price 5 then 7,
position 1/2 both dates) starts at exactly 1 for both strategies. -/
theorem c10_start_at_one_witness :
    (calcNetworth 1 Method.vector [[some 5], [some 7]]
      [[some (1/2)], [some (1/2)]] (1/1000)).head? = some 1 ∧
    (calcNetworth 1 Method.progress [[some 5], [some 7]]
      [[some (1/2)], [some (1/2)]] (1/1000)).head? = some 1 := by
  constructor
  · exact c10_start_at_one 1 Method.vector _ _ (1/1000) rfl (by decide)
  · exact c10_start_at_one 1 Method.progress _ _ (1/1000) rfl (by decide)

/- ## C8: gross-exposure check -/
/-- C8: among inputs passing the data-match precondition, `NetWorth`
construction fails with the illegal-exposure assertion exactly when the
check is not skipped and some date's gross exposure exceeds 1 by more
than 1e-8 (the source compares against the literal 1.00000001); with
the opt-out flag set, construction succeeds and the simulation output
is produced without error on the same inputs. -/
theorem c8_illegal_exposure_iff (n : ℕ) (m : Method) (price posi : Table)
    (fee : ℚ) (ig : Bool) (h : checkDataMatch price posi = true) :
    (netWorthInit n price posi fee ig m = .error .illegalExposure ↔
      (ig = false ∧ ∃ r ∈ posi, sumAbsRow r > 1 + 1/100000000)) ∧
    (ig = true →
      netWorthInit n price posi fee ig m
        = .ok (calcNetworth n m price posi fee)) := by
  have hth : (1.00000001 : ℚ) = 1 + 1/100000000 := by norm_num
  constructor
  · constructor
    · intro he
      rcases hcl : checkPosiLegal ig posi with _ | _
      · have : ig = false ∧
            posi.any (fun r => decide (sumAbsRow r > 1.00000001)) = true := by
          rcases ig with _ | _
          · constructor
            · rfl
            · simpa [checkPosiLegal] using hcl
          · simp [checkPosiLegal] at hcl
        rcases this with ⟨hig, hany⟩
        rcases List.any_eq_true.mp hany with ⟨r, hr, hgt⟩
        exact ⟨hig, r, hr, by rw [← hth]; exact of_decide_eq_true hgt⟩
      · exfalso
        simp only [netWorthInit, h, hcl] at he
        simp at he
    · rintro ⟨hig, r, hr, hgt⟩
      have hcl : checkPosiLegal ig posi = false := by
        simp only [checkPosiLegal, hig, Bool.false_or, Bool.not_eq_false']
        exact List.any_eq_true.mpr ⟨r, hr, decide_eq_true (by
          rw [hth]; exact hgt)⟩
      simp [netWorthInit, h, hcl]
  · intro hig
    have hcl : checkPosiLegal ig posi = true := by
      simp [checkPosiLegal, hig]
    simp [netWorthInit, h, hcl]

/-- Witness for C8: price `[[1]]`, position `[[3/2]]` passes the data
match, and with strict checking on, construction fails with the
illegal-exposure error since `3/2 > 1 + 1e-8`. -/
theorem c8_illegal_exposure_iff_witness :
    checkDataMatch [[some 1]] [[some (3/2)]] = true ∧
    netWorthInit 1 [[some 1]] [[some (3/2)]] 0 false Method.vector
      = .error .illegalExposure := by
  have h : checkDataMatch [[some 1]] [[some (3/2)]] = true := by
    norm_num [checkDataMatch, dataMatchRow]
  refine ⟨h, ?_⟩
  refine ((c8_illegal_exposure_iff 1 Method.vector [[some 1]]
    [[some (3/2)]] 0 false h).1).mpr ⟨rfl, [some (3/2)], by simp, ?_⟩
  rw [show sumAbsRow [some (3/2 : ℚ)] = |(3/2 : ℚ)| + 0 from rfl,
    abs_of_nonneg (by norm_num : (0:ℚ) ≤ 3/2)]
  norm_num

/- ## C5: fee monotonicity of the vector strategy -/
theorem netRet_row_affine (r : Row) (s c : List ℚ) :
    ∃ tw : ℚ, 0 ≤ tw ∧ ∀ f : ℚ,
      nanSumRow (List.zipWith3 (netRetCell f) r s c)
        = nanSumRow (List.zipWith3 (netRetCell 0) r s c) - f * tw := by
  induction r generalizing s c with
  | nil => exact ⟨0, le_refl 0, fun f => by simp [List.zipWith3, nanSumRow]⟩
  | cons a t ih =>
      cases s with
      | nil => exact ⟨0, le_refl 0, fun f => by
          simp [List.zipWith3, nanSumRow]⟩
      | cons b u =>
          cases c with
          | nil => exact ⟨0, le_refl 0, fun f => by
              simp [List.zipWith3, nanSumRow]⟩
          | cons d v =>
              rcases ih u v with ⟨tw, htw, hfm⟩
              cases a with
              | none =>
                  refine ⟨tw, htw, fun f => ?_⟩
                  simp only [List.zipWith3,
                    show netRetCell f none b d = none from rfl,
                    show netRetCell 0 none b d = none from rfl,
                    nanSumRow_cons_none]
                  exact hfm f
              | some rv =>
                  refine ⟨|d| + tw, add_nonneg (abs_nonneg d) htw,
                    fun f => ?_⟩
                  simp only [List.zipWith3,
                    show netRetCell f (some rv) b d
                      = some (rv * b - |d| * f) from rfl,
                    show netRetCell 0 (some rv) b d
                      = some (rv * b - |d| * 0) from rfl,
                    nanSumRow_cons_some]
                  rw [hfm f]
                  ring

theorem netRet_sums_mono (f1 f2 : ℚ) (h : f1 ≤ f2) :
    ∀ (ret : Table) (sh chg : List (List ℚ)),
      List.Forall₂ (fun x y => x ≤ y)
        ((netReturnRows f2 ret sh chg).map nanSumRow)
        ((netReturnRows f1 ret sh chg).map nanSumRow) := by
  intro ret
  induction ret with
  | nil => intro sh chg; simp [netReturnRows, List.zipWith3]
  | cons r rs ih =>
      intro sh chg
      cases sh with
      | nil => simp [netReturnRows, List.zipWith3]
      | cons s ss =>
          cases chg with
          | nil => simp [netReturnRows, List.zipWith3]
          | cons c cs =>
              simp only [netReturnRows, List.zipWith3, List.map_cons]
              refine List.Forall₂.cons ?_ (ih ss cs)
              rcases netRet_row_affine r s c with ⟨tw, htw, hfm⟩
              rw [hfm f1, hfm f2]
              have := mul_le_mul_of_nonneg_right h htw
              linarith

theorem forall2_le_map_add_one (as bs : List ℚ)
    (h : List.Forall₂ (fun x y => x ≤ y) as bs) :
    List.Forall₂ (fun x y => x ≤ y)
      (as.map (fun s => s + 1)) (bs.map (fun s => s + 1)) := by
  induction h with
  | nil => simp
  | cons hab _ ih =>
      simp only [List.map_cons]
      exact List.Forall₂.cons (by linarith) ih

theorem cumprodGo_le (xs ys : List ℚ)
    (hf : List.Forall₂ (fun x y => x ≤ y) xs ys) :
    ∀ (k : ℕ) (a b : ℚ), 0 ≤ a → a ≤ b →
      (∀ i ≤ k, ∀ x, xs[i]? = some x → 0 ≤ x) →
      ∀ x y, (cumprodGo a xs)[k]? = some x →
        (cumprodGo b ys)[k]? = some y → x ≤ y := by
  induction hf with
  | nil =>
      intro k a b _ _ _ x y hx _
      simp [cumprodGo] at hx
  | @cons x0 y0 xs ys hxy hf ih =>
      intro k a b ha hab hnn x y hx hy
      have hx0 : 0 ≤ x0 := hnn 0 (Nat.zero_le k) x0 (by simp)
      have hstep : a * x0 ≤ b * y0 :=
        mul_le_mul hab hxy hx0 (le_trans ha hab)
      cases k with
      | zero =>
          simp only [cumprodGo, List.getElem?_cons_zero,
            Option.some.injEq] at hx hy
          subst hx
          subst hy
          exact hstep
      | succ k =>
          simp only [cumprodGo, List.getElem?_cons_succ] at hx hy
          exact ih k (a * x0) (b * y0) (mul_nonneg ha hx0) hstep
            (fun i hi z hz => hnn (i + 1) (Nat.succ_le_succ hi) z
              (by simpa using hz)) x y hx hy

/-- C5 (amended): holding price and position fixed, with fee rates
`f1 ≤ f2` and at least one position change on or before date index `k`,
the vector-strategy net worth at `k` under `f2` is at most the one under
`f1` — provided every per-period compounding factor `1 + netReturn`
under the larger fee stays nonnegative up to `k`.  (Without that
proviso the claim is false: once a factor goes negative, a larger fee
can raise the cumulative product; see the counterexample.) -/
theorem c5_fee_monotonic (n : ℕ) (price posi : Table) (f1 f2 : ℚ)
    (k : ℕ) (hle : f1 ≤ f2)
    (_hchg : ∃ i ≤ k, ∃ ch,
      (diffRows n (shiftFill n (sliceWindow posi posi)))[i]? = some ch ∧
      ∃ x ∈ ch, x ≠ 0)
    (hnn : ∀ i ≤ k, ∀ s,
      (netReturnSums n price posi f2)[i]? = some s → 0 ≤ 1 + s)
    (w1 w2 : ℚ)
    (h1 : (calcNetworthVector n price posi f1)[k]? = some w1)
    (h2 : (calcNetworthVector n price posi f2)[k]? = some w2) :
    w2 ≤ w1 := by
  have hsums : ∀ f : ℚ, netReturnSums n price posi f
      = (netReturnRows f (pctChange n (sliceWindow posi price))
          (shiftFill n (sliceWindow posi posi))
          (diffRows n (shiftFill n (sliceWindow posi posi)))).map
            nanSumRow := fun f => rfl
  have hmono : List.Forall₂ (fun x y => x ≤ y)
      (netReturnSums n price posi f2) (netReturnSums n price posi f1) := by
    rw [hsums f1, hsums f2]
    exact netRet_sums_mono f1 f2 hle _ _ _
  have hmap := forall2_le_map_add_one _ _ hmono
  have hnn2 : ∀ i ≤ k, ∀ x,
      ((netReturnSums n price posi f2).map (fun s => s + 1))[i]? = some x →
      0 ≤ x := by
    intro i hi x hx
    rw [List.getElem?_map] at hx
    rcases Option.map_eq_some'.mp hx with ⟨s, hs, hsx⟩
    subst hsx
    have := hnn i hi s hs
    linarith
  exact cumprodGo_le _ _ hmap k 1 1 (by norm_num) (le_refl 1) hnn2 w2 w1 h2 h1

/-- Witness for C5: price constant 1 over three dates with positions
`[1, -1, 1]`, fee rates 0 and 1/10; all compounding factors stay
nonnegative, a position change happens by date 2, and the net worth at
date 2 drops from 1 to 18/25 as the fee rises. -/
theorem c5_fee_monotonic_witness :
    (calcNetworthVector 1 [[some 1], [some 1], [some 1]]
      [[some 1], [some (-1)], [some 1]] (1/10))[2]? = some (18/25) ∧
    (calcNetworthVector 1 [[some 1], [some 1], [some 1]]
      [[some 1], [some (-1)], [some 1]] 0)[2]? = some 1 ∧
    (18/25 : ℚ) ≤ 1 := by
  have hslice : sliceWindow [[some 1], [some (-1)], [some 1]]
      [[some 1], [some 1], [some 1]] = [[some 1], [some 1], [some 1]] := by
    decide
  have hslicep : sliceWindow [[some 1], [some (-1)], [some 1]]
      [[some 1], [some (-1)], [some 1]]
      = [[some 1], [some (-1)], [some 1]] := by decide
  have hv1 : (calcNetworthVector 1 [[some 1], [some 1], [some 1]]
      [[some 1], [some (-1)], [some 1]] (1/10))[2]? = some (18/25) := by
    norm_num [calcNetworthVector, netReturnSums, hslice, hslicep,
      pctChange, pctChangeGo, padCell, retCell, shiftFill, fillRow,
      diffRows, diffGo, netReturnRows, List.zipWith3, netRetCell,
      nanSumRow, cumprod, cumprodGo, List.filterMap_cons,
      List.filterMap_nil, id_eq]
  have hv0 : (calcNetworthVector 1 [[some 1], [some 1], [some 1]]
      [[some 1], [some (-1)], [some 1]] 0)[2]? = some 1 := by
    norm_num [calcNetworthVector, netReturnSums, hslice, hslicep,
      pctChange, pctChangeGo, padCell, retCell, shiftFill, fillRow,
      diffRows, diffGo, netReturnRows, List.zipWith3, netRetCell,
      nanSumRow, cumprod, cumprodGo, List.filterMap_cons,
      List.filterMap_nil, id_eq]
  have hw := c5_fee_monotonic 1 [[some 1], [some 1], [some 1]]
    [[some 1], [some (-1)], [some 1]] 0 (1/10) 2
    (by norm_num)
    (by
      refine ⟨1, by norm_num, [1], ?_, 1, by simp, by norm_num⟩
      norm_num [diffRows, diffGo, shiftFill, fillRow, hslicep])
    (by
      intro i hi s hs
      have hsum : netReturnSums 1 [[some 1], [some 1], [some 1]]
          [[some 1], [some (-1)], [some 1]] (1/10)
          = [0, -(1/10), -(1/5)] := by
        norm_num [netReturnSums, hslice, hslicep, pctChange, pctChangeGo,
          padCell, retCell, shiftFill, fillRow, diffRows, diffGo,
          netReturnRows, List.zipWith3, netRetCell, nanSumRow,
          List.filterMap_cons, List.filterMap_nil, id_eq]
      rw [hsum] at hs
      interval_cases i <;> simp_all <;> linarith)
    1 (18/25) hv0 hv1
  exact ⟨hv1, hv0, hw⟩

/-- Counterexample to C5 as stated: with constant price 1 and positions
`[1, -1, 1]` (gross exposure 1 on every date, data matching, position
changes before date 2), the fee pair `f1 = 1/2 ≤ f2 = 3/2` gives net
worth 0 at date 2 under `f1` but 1 under `f2`: net worth is not
monotone in the fee rate once a compounding factor turns negative. -/
theorem c5_counterexample :
    checkDataMatch [[some 1], [some 1], [some 1]]
      [[some 1], [some (-1)], [some 1]] = true ∧
    checkPosiLegal false [[some 1], [some (-1)], [some 1]] = true ∧
    (1/2 : ℚ) ≤ 3/2 ∧
    (calcNetworthVector 1 [[some 1], [some 1], [some 1]]
      [[some 1], [some (-1)], [some 1]] (1/2))[2]? = some 0 ∧
    (calcNetworthVector 1 [[some 1], [some 1], [some 1]]
      [[some 1], [some (-1)], [some 1]] (3/2))[2]? = some 1 ∧
    ¬ ((1 : ℚ) ≤ 0) := by
  have hslice : sliceWindow [[some 1], [some (-1)], [some 1]]
      [[some 1], [some 1], [some 1]] = [[some 1], [some 1], [some 1]] := by
    decide
  have hslicep : sliceWindow [[some 1], [some (-1)], [some 1]]
      [[some 1], [some (-1)], [some 1]]
      = [[some 1], [some (-1)], [some 1]] := by decide
  refine ⟨by decide, ?_, by norm_num, ?_, ?_, by norm_num⟩
  · norm_num [checkPosiLegal, sumAbsRow, List.filterMap_cons,
      List.filterMap_nil, id_eq]
  · norm_num [calcNetworthVector, netReturnSums, hslice, hslicep,
      pctChange, pctChangeGo, padCell, retCell, shiftFill, fillRow,
      diffRows, diffGo, netReturnRows, List.zipWith3, netRetCell,
      nanSumRow, cumprod, cumprodGo, List.filterMap_cons,
      List.filterMap_nil, id_eq]
  · norm_num [calcNetworthVector, netReturnSums, hslice, hslicep,
      pctChange, pctChangeGo, padCell, retCell, shiftFill, fillRow,
      diffRows, diffGo, netReturnRows, List.zipWith3, netRetCell,
      nanSumRow, cumprod, cumprodGo, List.filterMap_cons,
      List.filterMap_nil, id_eq]

/- ## C4: no-lookahead (lag) invariant -/
theorem take_prefix_mono {α : Type} (l1 l2 : List α) (M j : ℕ)
    (hj : j ≤ M) (h : l1.take M = l2.take M) :
    l1.take j = l2.take j := by
  have h1 : l1.take j = (l1.take M).take j := by
    rw [List.take_take, min_eq_left hj]
  have h2 : l2.take j = (l2.take M).take j := by
    rw [List.take_take, min_eq_left hj]
  rw [h1, h2, h]

theorem take_succ_eq_nil_right {α : Type} (l1 l2 : List α) (m : ℕ)
    (h : l1.take (m + 1) = l2.take (m + 1)) (h1 : l1 = []) : l2 = [] := by
  subst h1
  cases l2 with
  | nil => rfl
  | cons b t => simp [List.take_succ_cons] at h

theorem map_take_congr {α β : Type} (f : α → β) (m : ℕ) :
    ∀ (l1 l2 : List α), l1.take m = l2.take m →
      (l1.map f).take m = (l2.map f).take m := by
  induction m with
  | zero => simp
  | succ k ih =>
      intro l1 l2 h
      cases l1 with
      | nil =>
          have h2 := take_succ_eq_nil_right [] l2 k h rfl
          subst h2
          rfl
      | cons a t1 =>
          cases l2 with
          | nil => simp [List.take_succ_cons] at h
          | cons b t2 =>
              simp only [List.take_succ_cons, List.cons.injEq] at h
              simp only [List.map_cons, List.take_succ_cons, h.1,
                List.cons.injEq, true_and]
              exact ih t1 t2 h.2

theorem zipWith_take_congr_right {α β γ : Type} (f : α → β → γ) (m : ℕ) :
    ∀ (l : List α) (r1 r2 : List β), r1.take m = r2.take m →
      (List.zipWith f l r1).take m = (List.zipWith f l r2).take m := by
  induction m with
  | zero => simp
  | succ k ih =>
      intro l r1 r2 h
      cases r1 with
      | nil =>
          have h2 := take_succ_eq_nil_right [] r2 k h rfl
          subst h2
          rfl
      | cons b1 t1 =>
          cases r2 with
          | nil => simp [List.take_succ_cons] at h
          | cons b2 t2 =>
              simp only [List.take_succ_cons, List.cons.injEq] at h
              cases l with
              | nil => rfl
              | cons a la =>
                  simp only [List.zipWith_cons_cons, List.take_succ_cons,
                    h.1, List.cons.injEq, true_and]
                  exact ih la t1 t2 h.2

theorem zipWith3_take_congr {α β γ δ : Type} (f : α → β → γ → δ) (m : ℕ) :
    ∀ (r : List α) (b1 b2 : List β) (c1 c2 : List γ),
      b1.take m = b2.take m → c1.take m = c2.take m →
      (List.zipWith3 f r b1 c1).take m
        = (List.zipWith3 f r b2 c2).take m := by
  induction m with
  | zero => simp
  | succ k ih =>
      intro r b1 b2 c1 c2 hb hc
      cases b1 with
      | nil =>
          have h2 := take_succ_eq_nil_right [] b2 k hb rfl
          subst h2
          cases r <;> cases c1 <;> cases c2 <;> rfl
      | cons x1 tb1 =>
          cases b2 with
          | nil => simp [List.take_succ_cons] at hb
          | cons x2 tb2 =>
              cases c1 with
              | nil =>
                  have h2 := take_succ_eq_nil_right [] c2 k hc rfl
                  subst h2
                  cases r <;> rfl
              | cons y1 tc1 =>
                  cases c2 with
                  | nil => simp [List.take_succ_cons] at hc
                  | cons y2 tc2 =>
                      simp only [List.take_succ_cons,
                        List.cons.injEq] at hb hc
                      cases r with
                      | nil => rfl
                      | cons z tr =>
                          simp only [List.zipWith3, List.take_succ_cons,
                            hb.1, hc.1, List.cons.injEq, true_and]
                          exact ih tr tb1 tb2 tc1 tc2 hb.2 hc.2

theorem cumprodGo_take_congr (m : ℕ) :
    ∀ (a : ℚ) (l1 l2 : List ℚ), l1.take m = l2.take m →
      (cumprodGo a l1).take m = (cumprodGo a l2).take m := by
  induction m with
  | zero => simp
  | succ k ih =>
      intro a l1 l2 h
      cases l1 with
      | nil =>
          have h2 := take_succ_eq_nil_right [] l2 k h rfl
          subst h2
          rfl
      | cons x t1 =>
          cases l2 with
          | nil => simp [List.take_succ_cons] at h
          | cons y t2 =>
              simp only [List.take_succ_cons, List.cons.injEq] at h
              simp only [cumprodGo, List.take_succ_cons, h.1,
                List.cons.injEq, true_and]
              exact ih (a * y) t1 t2 h.2

theorem diffGo_take_congr (m : ℕ) :
    ∀ (p : List ℚ) (l1 l2 : List (List ℚ)), l1.take m = l2.take m →
      (diffGo p l1).take m = (diffGo p l2).take m := by
  induction m with
  | zero => simp
  | succ k ih =>
      intro p l1 l2 h
      cases l1 with
      | nil =>
          have h2 := take_succ_eq_nil_right [] l2 k h rfl
          subst h2
          rfl
      | cons r1 t1 =>
          cases l2 with
          | nil => simp [List.take_succ_cons] at h
          | cons r2 t2 =>
              simp only [List.take_succ_cons, List.cons.injEq] at h
              simp only [diffGo, List.take_succ_cons, h.1,
                List.cons.injEq, true_and]
              exact ih r2 t1 t2 h.2

theorem diffRows_take_congr (n M : ℕ) (l1 l2 : List (List ℚ))
    (h : l1.take (M + 1) = l2.take (M + 1)) :
    (diffRows n l1).take (M + 1) = (diffRows n l2).take (M + 1) := by
  cases l1 with
  | nil =>
      have h2 := take_succ_eq_nil_right [] l2 M h rfl
      subst h2
      rfl
  | cons r1 t1 =>
      cases l2 with
      | nil => simp [List.take_succ_cons] at h
      | cons r2 t2 =>
          simp only [List.take_succ_cons, List.cons.injEq] at h
          simp only [diffRows, List.take_succ_cons, List.cons.injEq,
            true_and]
          rw [h.1]
          exact diffGo_take_congr M r2 t1 t2 h.2

theorem dropLast_take_congr {α : Type} (l1 l2 : List α) (M : ℕ)
    (hl : l1.length = l2.length) (hp : l1.take M = l2.take M) :
    (l1.dropLast).take M = (l2.dropLast).take M := by
  rw [List.dropLast_eq_take, List.dropLast_eq_take, List.take_take,
    List.take_take, hl]
  exact take_prefix_mono l1 l2 M (min M (l2.length - 1))
    (min_le_left _ _) hp

theorem progressGo_take_congr (fee : ℚ) (m : ℕ) :
    ∀ (lp : Row) (la : ℚ) (lh : List ℚ) (r1 r2 : List (Row × Row)),
      r1.take m = r2.take m →
      (progressGo fee lp la lh r1).take m
        = (progressGo fee lp la lh r2).take m := by
  induction m with
  | zero => simp
  | succ k ih =>
      intro lp la lh r1 r2 h
      cases r1 with
      | nil =>
          have h2 := take_succ_eq_nil_right [] r2 k h rfl
          subst h2
          rfl
      | cons p1 t1 =>
          cases r2 with
          | nil => simp [List.take_succ_cons] at h
          | cons p2 t2 =>
              simp only [List.take_succ_cons, List.cons.injEq] at h
              rcases p1 with ⟨pr1, po1⟩
              rcases p2 with ⟨pr2, po2⟩
              rcases Prod.mk.injEq .. ▸ h.1 with ⟨he1, he2⟩
              subst he1
              subst he2
              simp only [progressGo, List.take_succ_cons, List.cons.injEq,
                true_and]
              exact ih pr1 _ _ t1 t2 h.2

theorem calcVec_eq_core (n : ℕ) (price posi : Table) (fee : ℚ) :
    calcNetworthVector n price posi fee
      = vectorCore n fee (sliceWindow posi price)
          (sliceWindow posi posi) := rfl

theorem calcProg_eq_core (n : ℕ) (price posi : Table) (fee : ℚ) :
    calcNetworthProgress n price posi fee
      = progressCore n fee (sliceWindow posi price)
          (sliceWindow posi posi) := rfl

theorem shiftFill_take_congr (n : ℕ) (po1 po2 : Table) (M : ℕ)
    (hl : po1.length = po2.length) (hp : po1.take M = po2.take M) :
    (shiftFill n po1).take (M + 1) = (shiftFill n po2).take (M + 1) := by
  cases po1 with
  | nil =>
      cases po2 with
      | nil => rfl
      | cons b t2 => simp at hl
  | cons a t1 =>
      cases po2 with
      | nil => simp at hl
      | cons b t2 =>
          simp only [shiftFill, List.take_succ_cons, List.cons.injEq,
            true_and]
          exact map_take_congr fillRow M _ _
            (dropLast_take_congr _ _ M hl hp)

theorem vector_core_take_congr (n : ℕ) (fee : ℚ) (pr po1 po2 : Table)
    (M : ℕ) (hl : po1.length = po2.length)
    (hp : po1.take M = po2.take M) :
    (vectorCore n fee pr po1).take (M + 1)
      = (vectorCore n fee pr po2).take (M + 1) := by
  have hsh := shiftFill_take_congr n po1 po2 M hl hp
  have hchg := diffRows_take_congr n M _ _ hsh
  have hnet := zipWith3_take_congr
    (fun r s c => List.zipWith3 (netRetCell fee) r s c) (M + 1)
    (pctChange n pr) _ _ _ _ hsh hchg
  have hm1 := map_take_congr nanSumRow (M + 1) _ _ hnet
  have hm2 := map_take_congr (fun s => s + 1) (M + 1) _ _ hm1
  exact cumprodGo_take_congr (M + 1) 1 _ _ hm2

theorem progress_core_take_congr (n : ℕ) (fee : ℚ) (pr po1 po2 : Table)
    (M : ℕ) (hl : po1.length = po2.length)
    (hp : po1.take M = po2.take M) :
    (progressCore n fee pr po1).take (M + 1)
      = (progressCore n fee pr po2).take (M + 1) := by
  cases pr with
  | nil => rfl
  | cons p0 prest =>
      simp only [progressCore, List.take_succ_cons, List.cons.injEq,
        true_and]
      refine progressGo_take_congr fee M p0 1 (List.replicate n 0) _ _ ?_
      have hdl := dropLast_take_congr po1 po2 M hl hp
      have hm := map_take_congr cleanseRow M _ _ hdl
      exact zipWith_take_congr_right Prod.mk M prest _ _ hm

theorem getElem?_eq_of_take_eq {α : Type} (l1 l2 : List α) (M k : ℕ)
    (h : l1.take M = l2.take M) (hk : k < M) : l1[k]? = l2[k]? := by
  have e1 : (l1.take M)[k]? = l1[k]? := by
    rw [List.getElem?_take, if_pos hk]
  have e2 : (l2.take M)[k]? = l2[k]? := by
    rw [List.getElem?_take, if_pos hk]
  rw [← e1, ← e2, h]

theorem firstValidIdx_none_all (t : Table) (h : firstValidIdx t = none) :
    ∀ r ∈ t, ∀ c ∈ r, c = none := by
  intro r hr c hc
  have hrow := (List.findIdx?_eq_none_iff.mp h) r hr
  cases c with
  | none => rfl
  | some v =>
      exfalso
      have hany : r.any (fun c => c.isSome) = true :=
        List.any_eq_true.mpr ⟨some v, hc, rfl⟩
      rw [hrow] at hany
      exact Bool.noConfusion hany

theorem row_eq_of_all_none (r1 : Row) : ∀ (r2 : Row),
    r1.length = r2.length → (∀ c ∈ r1, c = none) →
    (∀ c ∈ r2, c = none) → r1 = r2 := by
  induction r1 with
  | nil =>
      intro r2 hl _ _
      cases r2 with
      | nil => rfl
      | cons b t => simp at hl
  | cons a t1 ih =>
      intro r2 hl h1 h2
      cases r2 with
      | nil => simp at hl
      | cons b t2 =>
          have ha : a = none := h1 a (by simp)
          have hb : b = none := h2 b (by simp)
          rw [ha, hb, ih t2 (by simpa using hl)
            (fun c hc => h1 c (by simp [hc]))
            (fun c hc => h2 c (by simp [hc]))]

theorem table_eq_of_all_none (n : ℕ) (t1 : Table) : ∀ (t2 : Table),
    t1.length = t2.length →
    (∀ r ∈ t1, ∀ c ∈ r, c = none) → (∀ r ∈ t2, ∀ c ∈ r, c = none) →
    (∀ r ∈ t1, r.length = n) → (∀ r ∈ t2, r.length = n) → t1 = t2 := by
  induction t1 with
  | nil =>
      intro t2 hl _ _ _ _
      cases t2 with
      | nil => rfl
      | cons b t => simp at hl
  | cons a t1 ih =>
      intro t2 hl h1 h2 hr1 hr2
      cases t2 with
      | nil => simp at hl
      | cons b t2 =>
          have hab : a = b :=
            row_eq_of_all_none a b
              (by rw [hr1 a (by simp), hr2 b (by simp)])
              (h1 a (by simp)) (h2 b (by simp))
          rw [hab, ih t2 (by simpa using hl)
            (fun r hr c hc => h1 r (by simp [hr]) c hc)
            (fun r hr c hc => h2 r (by simp [hr]) c hc)
            (fun r hr => hr1 r (by simp [hr]))
            (fun r hr => hr2 r (by simp [hr]))]

theorem lastValidIdx_some_of_first (t : Table) (a : ℕ)
    (h : firstValidIdx t = some a) : ∃ b, lastValidIdx t = some b := by
  unfold lastValidIdx
  rcases hfl : t.reverse.findIdx? (fun r => r.any (fun c => c.isSome))
    with _ | k
  · exfalso
    have hall := List.findIdx?_eq_none_iff.mp hfl
    have hnone : firstValidIdx t = none :=
      List.findIdx?_eq_none_iff.mpr
        (fun x hx => hall x (List.mem_reverse.mpr hx))
    rw [h] at hnone
    exact Option.noConfusion hnone
  · rw [hfl]
    exact ⟨_, rfl⟩

/-- C4 (amended): two runs whose position tables agree on all dates up
to and including `t-1`, have the same shape, and induce the same
restricted window (equal first and last valid dates) produce identical
net worth at every date `d ≤ t`, for either simulation strategy: net
worth at `t` depends only on positions decided as of `t-1`.  (Without
the same-window condition the claim fails: a change after `t-1` can
extend or shrink the simulation window and thereby create or remove
net-worth values at dates ≤ t; see the counterexample.) -/
theorem c4_lag_invariant (n : ℕ) (m : Method) (price posA posB : Table)
    (fee : ℚ) (t : ℕ)
    (hpre : posA.take t = posB.take t)
    (hlen : posA.length = posB.length)
    (hrecA : ∀ r ∈ posA, r.length = n)
    (hrecB : ∀ r ∈ posB, r.length = n)
    (hfv : firstValidIdx posA = firstValidIdx posB)
    (hlv : lastValidIdx posA = lastValidIdx posB)
    (d : ℕ) (hd : d ≤ t) :
    networthAtDate n m price posA fee d
      = networthAtDate n m price posB fee d := by
  rcases hf : firstValidIdx posA with _ | a
  · have hfB : firstValidIdx posB = none := hfv ▸ hf
    have hAB : posA = posB :=
      table_eq_of_all_none n posA posB hlen
        (firstValidIdx_none_all _ hf) (firstValidIdx_none_all _ hfB)
        hrecA hrecB
    rw [hAB]
  · have hfB : firstValidIdx posB = some a := hfv ▸ hf
    rcases lastValidIdx_some_of_first posA a hf with ⟨b, hl⟩
    have hlB : lastValidIdx posB = some b := hlv ▸ hl
    simp only [networthAtDate, hf, hfB]
    by_cases had : a ≤ d
    · simp only [if_pos had]
      have hps : sliceWindow posA price = sliceWindow posB price := by
        simp only [sliceWindow, hf, hfB, hl, hlB]
      have hsA : sliceWindow posA posA
          = (posA.drop a).take (b - a + 1) := by
        simp only [sliceWindow, hf, hl]
      have hsB : sliceWindow posB posB
          = (posB.drop a).take (b - a + 1) := by
        simp only [sliceWindow, hfB, hlB]
      have hdrop : (posA.drop a).take (t - a)
          = (posB.drop a).take (t - a) := by
        have h1 : posA.take (a + (t - a)) = posB.take (a + (t - a)) :=
          take_prefix_mono posA posB t (a + (t - a)) (by omega) hpre
        have e1 : (posA.take (a + (t - a))).drop a
            = (posA.drop a).take (t - a) := by
          rw [List.drop_take]
          congr 1
          omega
        have e2 : (posB.take (a + (t - a))).drop a
            = (posB.drop a).take (t - a) := by
          rw [List.drop_take]
          congr 1
          omega
        rw [← e1, ← e2, h1]
      have hslice_pre : (sliceWindow posA posA).take (t - a)
          = (sliceWindow posB posB).take (t - a) := by
        rw [hsA, hsB, List.take_take, List.take_take]
        exact take_prefix_mono _ _ (t - a) (min (t - a) (b - a + 1))
          (min_le_left _ _) hdrop
      have hsl : (sliceWindow posA posA).length
          = (sliceWindow posB posB).length := by
        rw [hsA, hsB]
        simp [List.length_take, List.length_drop, hlen]
      have hk : d - a < (t - a) + 1 := by omega
      cases m with
      | vector =>
          simp only [calcNetworth]
          rw [calcVec_eq_core, calcVec_eq_core, hps]
          exact getElem?_eq_of_take_eq _ _ ((t - a) + 1) (d - a)
            (vector_core_take_congr n fee (sliceWindow posB price) _ _
              (t - a) hsl hslice_pre) hk
      | progress =>
          simp only [calcNetworth]
          rw [calcProg_eq_core, calcProg_eq_core, hps]
          exact getElem?_eq_of_take_eq _ _ ((t - a) + 1) (d - a)
            (progress_core_take_congr n fee (sliceWindow posB price) _ _
              (t - a) hsl hslice_pre) hk
    · simp only [if_neg had]

/-- Witness for C4: positions `[[1], [1]]` and `[[1], [1/2]]` agree at
date 0 (= t-1 for t = 1), share the window [0, 1], and yield the same
net worth at date 1 (the changed position at date 1 is only applied
from date 2 on). -/
theorem c4_lag_invariant_witness :
    networthAtDate 1 Method.vector [[some 1], [some 2]]
      [[some 1], [some 1]] 0 1
      = networthAtDate 1 Method.vector [[some 1], [some 2]]
          [[some 1], [some (1/2)]] 0 1 := by
  exact c4_lag_invariant 1 Method.vector [[some 1], [some 2]]
    [[some 1], [some 1]] [[some 1], [some (1/2)]] 0 1
    rfl rfl (by decide) (by decide) (by decide) (by decide) 1 (le_refl 1)

/-- Counterexample to C4 as stated: price `[1, 2]`, position A
`[1, NaN]`, position B `[1, 1]` differ only at date 1 (strictly after
t-1 = 0 for t = 1), both are accepted by the constructor, yet at date
1 ≤ t run A has no net worth value (its window ends at date 0) while
run B has net worth 2: changing a position strictly after `t-1` changed
which dates ≤ t carry a net worth at all. -/
theorem c4_counterexample :
    ([[some (1:ℚ)], [none]] : Table).take 1
      = ([[some (1:ℚ)], [some 1]] : Table).take 1 ∧
    checkDataMatch [[some 1], [some 2]] [[some 1], [none]] = true ∧
    checkDataMatch [[some 1], [some 2]] [[some 1], [some 1]] = true ∧
    checkPosiLegal false [[some 1], [none]] = true ∧
    checkPosiLegal false [[some 1], [some 1]] = true ∧
    networthAtDate 1 Method.vector [[some 1], [some 2]]
      [[some 1], [none]] 0 1 = none ∧
    networthAtDate 1 Method.vector [[some 1], [some 2]]
      [[some 1], [some 1]] 0 1 = some 2 ∧
    networthAtDate 1 Method.vector [[some 1], [some 2]]
      [[some 1], [none]] 0 1
      ≠ networthAtDate 1 Method.vector [[some 1], [some 2]]
          [[some 1], [some 1]] 0 1 := by
  have hlegA : checkPosiLegal false [[some (1:ℚ)], [none]] = true := by
    norm_num [checkPosiLegal, sumAbsRow, List.filterMap_cons,
      List.filterMap_nil, id_eq]
  have hlegB : checkPosiLegal false [[some (1:ℚ)], [some 1]] = true := by
    norm_num [checkPosiLegal, sumAbsRow, List.filterMap_cons,
      List.filterMap_nil, id_eq]
  have hsliceA : sliceWindow [[some (1:ℚ)], [none]]
      [[some (1:ℚ)], [some 2]] = [[some 1]] := by decide
  have hsliceAp : sliceWindow [[some (1:ℚ)], [none]]
      [[some (1:ℚ)], [none]] = [[some 1]] := by decide
  have hsliceB : sliceWindow [[some (1:ℚ)], [some 1]]
      [[some (1:ℚ)], [some 2]] = [[some 1], [some 2]] := by decide
  have hsliceBp : sliceWindow [[some (1:ℚ)], [some 1]]
      [[some (1:ℚ)], [some 1]] = [[some 1], [some 1]] := by decide
  have hA : networthAtDate 1 Method.vector [[some 1], [some 2]]
      [[some 1], [none]] 0 1 = none := by
    have hfA : firstValidIdx [[some (1:ℚ)], [none]] = some 0 := by decide
    simp only [networthAtDate, hfA, calcNetworth]
    norm_num [calcNetworthVector, netReturnSums, hsliceA, hsliceAp,
      pctChange, pctChangeGo, padCell, retCell, shiftFill, fillRow,
      diffRows, diffGo, netReturnRows, List.zipWith3, netRetCell,
      nanSumRow, cumprod, cumprodGo, List.filterMap_cons,
      List.filterMap_nil, id_eq]
  have hB : networthAtDate 1 Method.vector [[some 1], [some 2]]
      [[some 1], [some 1]] 0 1 = some 2 := by
    have hfB : firstValidIdx [[some (1:ℚ)], [some 1]] = some 0 := by decide
    simp only [networthAtDate, hfB, calcNetworth]
    norm_num [calcNetworthVector, netReturnSums, hsliceB, hsliceBp,
      pctChange, pctChangeGo, padCell, retCell, shiftFill, fillRow,
      diffRows, diffGo, netReturnRows, List.zipWith3, netRetCell,
      nanSumRow, cumprod, cumprodGo, List.filterMap_cons,
      List.filterMap_nil, id_eq]
  refine ⟨rfl, by decide, by decide, hlegA, hlegB, hA, hB, ?_⟩
  rw [hA, hB]
  simp

theorem dmChain_nil (raw : Row) (prRows : Table) :
    dmChain raw prRows [] = True := by
  unfold dmChain
  rfl

theorem dmChain_cons_nil (raw : Row) (q : Row) (qs : Table) :
    dmChain raw [] (q :: qs) = (List.Forall₂ dmCell q raw ∧ True) := by
  unfold dmChain
  rfl

theorem dmChain_cons_cons (raw p : Row) (ps : Table) (q : Row)
    (qs : Table) :
    dmChain raw (p :: ps) (q :: qs)
      = (List.Forall₂ dmCell q raw ∧ dmChain p ps qs) := by
  conv_lhs => unfold dmChain

theorem tranSum_zero : ∀ (hold lh : List ℚ) (lp : Row),
    nanSumRow (List.zipWith3 (tranCell 0) hold lh lp) = 0 := by
  intro hold
  induction hold with
  | nil => intro lh lp; simp [List.zipWith3, nanSumRow]
  | cons h t ih =>
      intro lh lp
      cases lh with
      | nil => simp [List.zipWith3, nanSumRow]
      | cons l lt =>
          cases lp with
          | nil => simp [List.zipWith3, nanSumRow]
          | cons p pt =>
              cases p with
              | none =>
                  simp only [List.zipWith3,
                    show tranCell 0 h l none = none from rfl,
                    nanSumRow_cons_none]
                  exact ih lt pt
              | some x =>
                  simp only [List.zipWith3,
                    show tranCell 0 h l (some x)
                      = some (|h - l| * x * 0) from rfl,
                    nanSumRow_cons_some, mul_zero, zero_add]
                  exact ih lt pt

theorem padAgree_next : ∀ (prX padRow : Row),
    prX.length = padRow.length →
    List.Forall₂ padAgree prX (List.zipWith padCell prX padRow) := by
  intro prX
  induction prX with
  | nil => intro padRow _; simp
  | cons a t ih =>
      intro padRow hl
      cases padRow with
      | nil => simp at hl
      | cons b u =>
          simp only [List.zipWith_cons_cons]
          refine List.Forall₂.cons ?_ (ih u (by simpa using hl))
          intro v hv
          subst hv
          rfl

theorem dmCell_of_row : ∀ (por prr : Row), por.length = prr.length →
    dataMatchRow por prr = true → List.Forall₂ dmCell por prr := by
  intro por
  induction por with
  | nil =>
      intro prr hl _
      cases prr with
      | nil => exact List.Forall₂.nil
      | cons b u => simp at hl
  | cons a t ih =>
      intro prr hl hm
      cases prr with
      | nil => simp at hl
      | cons b u =>
          simp only [dataMatchRow, List.zip_cons_cons, List.all_cons,
            Bool.and_eq_true] at hm
          refine List.Forall₂.cons ?_ (ih u (by simpa using hl) ?_)
          · intro v hv hv0
            subst hv
            simp only [if_neg hv0] at hm
            rcases hb : b with _ | u2
            · rw [hb] at hm
              simp at hm
            · exact ⟨u2, rfl⟩
          · exact hm.2

theorem take_zip {α β : Type} : ∀ (m : ℕ) (x : List α) (y : List β),
    (x.take m).zip (y.take m) = (x.zip y).take m := by
  intro m
  induction m with
  | zero => simp
  | succ k ih =>
      intro x y
      cases x with
      | nil => simp
      | cons a t =>
          cases y with
          | nil => simp
          | cons b u =>
              simp only [List.take_succ_cons, List.zip_cons_cons]
              rw [ih t u]

theorem drop_zip {α β : Type} : ∀ (a : ℕ) (x : List α) (y : List β),
    x.length = y.length → (x.drop a).zip (y.drop a) = (x.zip y).drop a := by
  intro a
  induction a with
  | zero => simp
  | succ k ih =>
      intro x y hl
      cases x with
      | nil =>
          cases y with
          | nil => simp
          | cons b u => simp at hl
      | cons c t =>
          cases y with
          | nil => simp at hl
          | cons b u =>
              simp only [List.drop_succ_cons, List.zip_cons_cons]
              exact ih t u (by simpa using hl)

theorem dmChain_of_zip_all (n : ℕ) : ∀ (poRows : Table) (raw : Row)
    (prRows : Table),
    (∀ pair ∈ poRows.zip (raw :: prRows),
      dataMatchRow pair.1 pair.2 = true) →
    (∀ r ∈ poRows, r.length = n) → raw.length = n →
    (∀ r ∈ prRows, r.length = n) →
    dmChain raw prRows poRows := by
  intro poRows
  induction poRows with
  | nil =>
      intro raw prRows _ _ _ _
      rw [dmChain_nil]
      exact True.intro
  | cons q qs ih =>
      intro raw prRows hall hq hraw hpr
      have hhead : List.Forall₂ dmCell q raw :=
        dmCell_of_row q raw
          (by rw [hq q (by simp), hraw])
          (hall (q, raw) (by simp))
      cases prRows with
      | nil =>
          rw [dmChain_cons_nil]
          exact ⟨hhead, True.intro⟩
      | cons p ps =>
          rw [dmChain_cons_cons]
          refine ⟨hhead, ?_⟩
          exact ih p ps
            (fun pair hp => hall pair (by
              simp only [List.zip_cons_cons, List.mem_cons]
              exact Or.inr hp))
            (fun r hr => hq r (by simp [hr]))
            (hpr p (by simp))
            (fun r hr => hpr r (by simp [hr]))

theorem contrib_head_zero (a b : Cell) (r : Row) :
    nanSumRow (contribCell 0 a b :: r) = nanSumRow r := by
  cases a with
  | none => cases b <;> simp [contribCell, nanSumRow_cons_none]
  | some c =>
      cases b with
      | none => simp [contribCell, nanSumRow_cons_none]
      | some l =>
          simp [contribCell, nanSumRow_cons_some]

theorem row_step_eq (w : ℚ) : ∀ (poX prX rawRow padRow : Row)
    (chgRow : List ℚ),
    prX.length = poX.length → chgRow.length = poX.length →
    List.Forall₂ dmCell poX rawRow →
    List.Forall₂ padAgree rawRow padRow →
    (∀ c ∈ rawRow, ∀ v : ℚ, c = some v → 0 < v) →
    w * nanSumRow (List.zipWith3 (netRetCell 0)
        (List.zipWith retCell (List.zipWith padCell prX padRow) padRow)
        (fillRow poX) chgRow)
      = nanSumRow (List.zipWith3 contribCell
          (List.zipWith (holdCell w) (cleanseRow poX) rawRow)
          prX rawRow) := by
  intro poX
  induction poX with
  | nil =>
      intro prX rawRow padRow chgRow hpr _ hdm hpa _
      cases hdm
      cases hpa
      cases prX with
      | nil => simp [List.zipWith3, nanSumRow, fillRow, cleanseRow]
      | cons a t => simp at hpr
  | cons qc poT ih =>
      intro prX rawRow padRow chgRow hpr hchg hdm hpa hpos
      cases hdm with
      | cons hq hdmT =>
        rename_i rc rawT
        cases hpa with
        | cons hpc hpaT =>
          rename_i padc padT
          cases prX with
          | nil => simp at hpr
          | cons pc prT =>
            cases chgRow with
            | nil => simp at hchg
            | cons chc chgT =>
              have hposT : ∀ c ∈ rawT, ∀ v : ℚ, c = some v → 0 < v :=
                fun c hc => hpos c (by simp [hc])
              have hIH := ih prT rawT padT chgT (by simpa using hpr)
                (by simpa using hchg) hdmT hpaT hposT
              simp only [fillRow, cleanseRow] at hIH
              simp only [fillRow, cleanseRow, List.map_cons,
                List.zipWith_cons_cons, List.zipWith3]
              rcases hqc : qc with _ | v
              · rw [show cleanseCell none = none from rfl,
                  show holdCell w none rc = 0 from (by cases rc <;> rfl),
                  contrib_head_zero, ← hIH]
                rcases hret : retCell (padCell pc padc) padc with _ | r
                · rw [show netRetCell 0 none ((none : Cell).getD 0) chc
                    = none from rfl, nanSumRow_cons_none]
                · rw [show netRetCell 0 (some r) ((none : Cell).getD 0) chc
                    = some (r * (none : Cell).getD 0 - |chc| * 0)
                    from rfl, nanSumRow_cons_some,
                    show ((none : Cell).getD 0 : ℚ) = 0 from rfl]
                  ring
              · by_cases hv0 : v = 0
                · subst hv0
                  rw [show cleanseCell (some (0 : ℚ)) = none from
                      (by simp [cleanseCell]),
                    show holdCell w none rc = 0 from (by cases rc <;> rfl),
                    contrib_head_zero, ← hIH]
                  rcases hret : retCell (padCell pc padc) padc with _ | r
                  · rw [show netRetCell 0 none
                      ((some (0:ℚ) : Cell).getD 0) chc = none from rfl,
                      nanSumRow_cons_none]
                  · rw [show netRetCell 0 (some r)
                      ((some (0:ℚ) : Cell).getD 0) chc
                      = some (r * (some (0:ℚ) : Cell).getD 0 - |chc| * 0)
                      from rfl, nanSumRow_cons_some,
                      show ((some (0:ℚ) : Cell).getD 0 : ℚ) = 0 from rfl]
                    ring
                · rcases hq v hqc hv0 with ⟨u, hrc⟩
                  subst hrc
                  have hu : 0 < u := hpos (some u) (by simp) u rfl
                  have hu0 : u ≠ 0 := ne_of_gt hu
                  have hpadc : padc = some u := hpc u rfl
                  subst hpadc
                  rw [show cleanseCell (some v) = some v from
                      (by simp [cleanseCell, hv0]),
                    show holdCell w (some v) (some u) = w * v / u
                      from rfl]
                  rcases hpcc : pc with _ | pv
                  · rw [show padCell none (some u) = some u from rfl,
                      show retCell (some u) (some u) = some (u / u - 1)
                        from rfl,
                      show netRetCell 0 (some (u / u - 1))
                        ((some v : Cell).getD 0) chc
                        = some ((u / u - 1) * (some v : Cell).getD 0
                            - |chc| * 0) from rfl,
                      nanSumRow_cons_some,
                      show contribCell (w * v / u) none (some u) = none
                        from rfl,
                      nanSumRow_cons_none, ← hIH,
                      show ((some v : Cell).getD 0 : ℚ) = v from rfl,
                      div_self hu0]
                    ring
                  · rw [show padCell (some pv) (some u) = some pv from rfl,
                      show retCell (some pv) (some u)
                        = some (pv / u - 1) from rfl,
                      show netRetCell 0 (some (pv / u - 1))
                        ((some v : Cell).getD 0) chc
                        = some ((pv / u - 1) * (some v : Cell).getD 0
                            - |chc| * 0) from rfl,
                      nanSumRow_cons_some,
                      show contribCell (w * v / u) (some pv) (some u)
                        = some (w * v / u * (pv - u)) from rfl,
                      nanSumRow_cons_some, ← hIH,
                      show ((some v : Cell).getD 0 : ℚ) = v from rfl]
                    field_simp
                    ring

theorem vecGo_eq_progressGo (n : ℕ) : ∀ (prRows poRows : Table)
    (rawRow padRow : Row) (shp lh : List ℚ) (w : ℚ),
    prRows.length = poRows.length →
    (∀ r ∈ prRows, r.length = n) → (∀ r ∈ poRows, r.length = n) →
    rawRow.length = n → padRow.length = n → shp.length = n →
    List.Forall₂ padAgree rawRow padRow →
    (∀ c ∈ rawRow, ∀ v : ℚ, c = some v → 0 < v) →
    (∀ r ∈ prRows, ∀ c ∈ r, ∀ v : ℚ, c = some v → 0 < v) →
    dmChain rawRow prRows poRows →
    cumprodGo w ((((netReturnRows 0 (pctChangeGo padRow prRows)
        (poRows.map fillRow)
        (diffGo shp (poRows.map fillRow))).map nanSumRow).map
          (fun s => s + 1)))
      = progressGo 0 rawRow w lh (prRows.zip (poRows.map cleanseRow)) := by
  intro prRows
  induction prRows with
  | nil =>
      intro poRows rawRow padRow shp lh w hlen _ _ _ _ _ _ _ _ _
      cases poRows with
      | nil => rfl
      | cons q qs => simp at hlen
  | cons pX prs ih =>
      intro poRows rawRow padRow shp lh w hlen hrecP hrecQ hraw hpad
        hshp hpa hposR hposP hdm
      cases poRows with
      | nil => simp at hlen
      | cons qX qrs =>
          rw [dmChain_cons_cons] at hdm
          rcases hdm with ⟨hdmHead, hdmTail⟩
          simp only [pctChangeGo, List.map_cons, diffGo, netReturnRows,
            List.zipWith3, cumprodGo, List.zip_cons_cons, progressGo]
          have hlq : qX.length = n := hrecQ qX (by simp)
          have hlp : pX.length = n := hrecP pX (by simp)
          have hrow := row_step_eq w qX pX rawRow padRow
            (List.zipWith (fun x y => x - y) (fillRow qX) shp)
            (by rw [hlp, hlq])
            (by
              rw [List.length_zipWith, fillRow, List.length_map, hlq,
                hshp]
              exact min_self n)
            hdmHead hpa hposR
          have htran := tranSum_zero
            (List.zipWith (holdCell w) (cleanseRow qX) rawRow) lh rawRow
          have hasset : w + nanSumRow (List.zipWith3 contribCell
              (List.zipWith (holdCell w) (cleanseRow qX) rawRow)
              pX rawRow) - nanSumRow (List.zipWith3 (tranCell 0)
                (List.zipWith (holdCell w) (cleanseRow qX) rawRow)
                lh rawRow)
              = w * (nanSumRow (List.zipWith3 (netRetCell 0)
                  (List.zipWith retCell
                    (List.zipWith padCell pX padRow) padRow)
                  (fillRow qX)
                  (List.zipWith (fun x y => x - y) (fillRow qX) shp)) + 1)
              := by
            rw [htran, ← hrow]
            ring
          rw [hasset]
          congr 1
          exact ih qrs pX (List.zipWith padCell pX padRow) (fillRow qX)
            (List.zipWith (holdCell w) (cleanseRow qX) rawRow)
            (w * (nanSumRow (List.zipWith3 (netRetCell 0)
              (List.zipWith retCell
                (List.zipWith padCell pX padRow) padRow)
              (fillRow qX)
              (List.zipWith (fun x y => x - y) (fillRow qX) shp)) + 1))
            (by simpa using hlen)
            (fun r hr => hrecP r (by simp [hr]))
            (fun r hr => hrecQ r (by simp [hr]))
            hlp
            (by rw [List.length_zipWith, hlp, hpad]; exact min_self n)
            (by rw [fillRow, List.length_map, hlq])
            (padAgree_next pX padRow (by rw [hlp, hpad]))
            (fun c hc => hposP pX (by simp) c hc)
            (fun r hr => hposP r (by simp [hr]))
            hdmTail

theorem mem_zip_of_take_left {α β : Type} : ∀ (k : ℕ) (x : List α)
    (y : List β) (p : α × β), p ∈ (x.take k).zip y → p ∈ x.zip y := by
  intro k
  induction k with
  | zero => simp
  | succ j ih =>
      intro x y p hp
      cases x with
      | nil => simp at hp
      | cons a t =>
          cases y with
          | nil => simp at hp
          | cons b u =>
              simp only [List.take_succ_cons, List.zip_cons_cons,
                List.mem_cons] at hp ⊢
              rcases hp with h | h
              · exact Or.inl h
              · exact Or.inr (ih t u p h)

theorem sliceWindow_subset (posi t : Table) :
    ∀ r ∈ sliceWindow posi t, r ∈ t := by
  intro r hr
  unfold sliceWindow at hr
  rcases hf : firstValidIdx posi with _ | a <;> rw [hf] at hr
  · exact hr
  · rcases hl : lastValidIdx posi with _ | b <;> rw [hl] at hr
    · exact hr
    · exact List.drop_subset a t (List.take_subset _ _ hr)

theorem zip_slice_subset (price posi : Table)
    (hlen : price.length = posi.length) :
    ∀ p ∈ (sliceWindow posi posi).zip (sliceWindow posi price),
      p ∈ posi.zip price := by
  intro p hp
  unfold sliceWindow at hp
  rcases hf : firstValidIdx posi with _ | a <;> rw [hf] at hp
  · exact hp
  · rcases hl : lastValidIdx posi with _ | b <;> rw [hl] at hp
    · exact hp
    · have hp2 : p ∈ ((posi.drop a).take (b - a + 1)).zip
          ((price.drop a).take (b - a + 1)) := hp
      rw [take_zip, drop_zip a posi price hlen.symm] at hp2
      exact List.drop_subset a (posi.zip price)
        (List.take_subset _ _ hp2)

/-- C1 (amended): with a zero fee rate, strictly positive prices and
aligned rectangular tables passing the data-match check, the vectorized
and the sequential strategies produce exactly the same net-worth series
at every date of the restricted window.  (With a nonzero fee rate they
genuinely differ: the vector strategy charges `|Δposition| * fee` of
current wealth while the sequential strategy charges
`|Δshares| * price * fee`, a different cost model; see the
counterexample.) -/
theorem c1_fee_zero_equiv (n : ℕ) (price posi : Table)
    (hlen : price.length = posi.length)
    (hrecP : ∀ r ∈ price, r.length = n)
    (hrecQ : ∀ r ∈ posi, r.length = n)
    (hpos : ∀ r ∈ price, ∀ c ∈ r, ∀ v : ℚ, c = some v → 0 < v)
    (hdm : checkDataMatch price posi = true) :
    calcNetworthVector n price posi 0
      = calcNetworthProgress n price posi 0 := by
  rw [calcVec_eq_core, calcProg_eq_core]
  have hlen2 : (sliceWindow posi price).length
      = (sliceWindow posi posi).length :=
    sliceWindow_length posi price posi hlen
  have hrecP2 : ∀ r ∈ sliceWindow posi price, r.length = n :=
    fun r hr => hrecP r (sliceWindow_subset posi price r hr)
  have hrecQ2 : ∀ r ∈ sliceWindow posi posi, r.length = n :=
    fun r hr => hrecQ r (sliceWindow_subset posi posi r hr)
  have hpos2 : ∀ r ∈ sliceWindow posi price, ∀ c ∈ r, ∀ v : ℚ,
      c = some v → 0 < v :=
    fun r hr => hpos r (sliceWindow_subset posi price r hr)
  have hdm2 : ∀ p ∈ (sliceWindow posi posi).zip (sliceWindow posi price),
      dataMatchRow p.1 p.2 = true := by
    intro p hp
    have hmem := zip_slice_subset price posi hlen p hp
    exact (List.all_eq_true.mp hdm) p hmem
  rcases hpr : sliceWindow posi price with _ | ⟨p0, prest⟩
  · rcases hpo : sliceWindow posi posi with _ | ⟨q0, qrest⟩
    · rfl
    · rw [hpr, hpo] at hlen2
      simp at hlen2
  · rcases hpo : sliceWindow posi posi with _ | ⟨q0, qrest⟩
    · rw [hpr, hpo] at hlen2
      simp at hlen2
    · rw [hpr, hpo] at hlen2
      rw [hpr] at hrecP2 hpos2
      rw [hpo] at hrecQ2
      rw [hpo, hpr] at hdm2
      simp only [vectorCore, progressCore, pctChange, pctChangeGo,
        shiftFill, diffRows, netReturnRows, List.zipWith3,
        List.map_cons, cumprod, cumprodGo]
      have hS0 : nanSumRow (List.zipWith3 (netRetCell 0)
          (List.zipWith retCell
            (List.zipWith padCell p0 (List.replicate n none))
            (List.replicate n none))
          (List.replicate n 0) (List.replicate n 0)) = 0 :=
        nanSumRow_netRet_all_none 0 _ _ _
          (zipWith_retCell_rep_none _ n)
      rw [hS0, show (1 : ℚ) * (0 + 1) = 1 from (by norm_num)]
      congr 1
      have hq0 : q0.length = n := hrecQ2 q0 (by simp)
      have hp0 : p0.length = n := hrecP2 p0 (by simp)
      refine vecGo_eq_progressGo n prest ((q0 :: qrest).dropLast) p0
        (List.zipWith padCell p0 (List.replicate n none))
        (List.replicate n 0) (List.replicate n 0) 1
        ?_ ?_ ?_ hp0 ?_ ?_ ?_ ?_ ?_ ?_
      · rw [List.length_dropLast]
        simpa using hlen2
      · exact fun r hr => hrecP2 r (by simp [hr])
      · intro r hr
        refine hrecQ2 r ?_
        rw [List.dropLast_eq_take] at hr
        exact List.take_subset _ _ hr
      · rw [List.length_zipWith, hp0, List.length_replicate]
        exact min_self n
      · exact List.length_replicate n 0
      · exact padAgree_next p0 (List.replicate n none)
          (by rw [hp0, List.length_replicate])
      · exact fun c hc => hpos2 p0 (by simp) c hc
      · exact fun r hr => hpos2 r (by simp [hr])
      · refine dmChain_of_zip_all n ((q0 :: qrest).dropLast) p0 prest
          ?_ ?_ hp0 ?_
        · intro pair hp
          refine hdm2 pair ?_
          rw [List.dropLast_eq_take] at hp
          exact mem_zip_of_take_left _ _ _ pair hp
        · intro r hr
          refine hrecQ2 r ?_
          rw [List.dropLast_eq_take] at hr
          exact List.take_subset _ _ hr
        · exact fun r hr => hrecP2 r (by simp [hr])

/-- Witness for C1: with zero fee on price `[1, 2]` and position
`[1, 1]`, both strategies produce the same series. -/
theorem c1_fee_zero_equiv_witness :
    checkDataMatch [[some 1], [some 2]] [[some 1], [some 1]] = true ∧
    calcNetworthVector 1 [[some 1], [some 2]] [[some 1], [some 1]] 0
      = calcNetworthProgress 1 [[some 1], [some 2]]
          [[some 1], [some 1]] 0 := by
  refine ⟨by decide,
    c1_fee_zero_equiv 1 [[some 1], [some 2]] [[some 1], [some 1]]
      rfl (by decide) (by decide) ?_ (by decide)⟩
  intro r hr c hc v hv
  simp only [List.mem_cons, List.not_mem_nil, or_false] at hr
  rcases hr with h | h <;> subst h <;>
    simp only [List.mem_cons, List.not_mem_nil, or_false] at hc <;>
    subst hc <;>
    simp only [Option.some.injEq] at hv <;>
    rw [← hv] <;> norm_num

/-- Counterexample to C1 as stated: price `[1, 2, 2]`, position
`[1, 1, 1]`, fee 1/8 is accepted by the constructor, but at date 2 the
vector strategy gives 15/8 while the sequential strategy gives 119/64:
the vector strategy charges `|Δposition| * fee` of current wealth and
sees no position change after date 1, while the sequential strategy
re-prices the share holdings and charges `|Δshares| * price * fee` on
the rebalancing forced by the price move, so the two differ by 1/64,
far beyond 1e-9 relative tolerance. -/
theorem c1_counterexample :
    checkDataMatch [[some 1], [some 2], [some 2]]
      [[some 1], [some 1], [some 1]] = true ∧
    checkPosiLegal false [[some 1], [some 1], [some 1]] = true ∧
    (calcNetworthVector 1 [[some 1], [some 2], [some 2]]
      [[some 1], [some 1], [some 1]] (1/8))[2]? = some (15/8) ∧
    (calcNetworthProgress 1 [[some 1], [some 2], [some 2]]
      [[some 1], [some 1], [some 1]] (1/8))[2]? = some (119/64) ∧
    |(15/8 : ℚ) - 119/64| > (1/1000000000) * |(15/8 : ℚ)| ∧
    |(15/8 : ℚ) - 119/64| > (1/1000000000) * |(119/64 : ℚ)| := by
  have hsp : sliceWindow [[some (1:ℚ)], [some 1], [some 1]]
      [[some (1:ℚ)], [some 2], [some 2]]
      = [[some 1], [some 2], [some 2]] := by decide
  have hso : sliceWindow [[some (1:ℚ)], [some 1], [some 1]]
      [[some (1:ℚ)], [some 1], [some 1]]
      = [[some 1], [some 1], [some 1]] := by decide
  refine ⟨by decide, ?_, ?_, ?_, ?_, ?_⟩
  · norm_num [checkPosiLegal, sumAbsRow, List.filterMap_cons,
      List.filterMap_nil, id_eq]
  · norm_num [calcNetworthVector, netReturnSums, hsp, hso,
      pctChange, pctChangeGo, padCell, retCell, shiftFill, fillRow,
      diffRows, diffGo, netReturnRows, List.zipWith3, netRetCell,
      nanSumRow, cumprod, cumprodGo, List.filterMap_cons,
      List.filterMap_nil, id_eq]
  · norm_num [calcNetworthProgress, hsp, hso, progressGo, holdCell,
      contribCell, tranCell, cleanseRow, cleanseCell, nanSumRow,
      List.zipWith3, List.filterMap_cons, List.filterMap_nil, id_eq]
    rw [show |(1/16 : ℚ)| = 1/16 from abs_of_nonneg (by norm_num)]
    norm_num
  · rw [show (15/8 : ℚ) - 119/64 = 1/64 from (by norm_num),
      show |(1/64 : ℚ)| = 1/64 from abs_of_nonneg (by norm_num),
      show |(15/8 : ℚ)| = 15/8 from abs_of_nonneg (by norm_num)]
    norm_num
  · rw [show (15/8 : ℚ) - 119/64 = 1/64 from (by norm_num),
      show |(1/64 : ℚ)| = 1/64 from abs_of_nonneg (by norm_num),
      show |(119/64 : ℚ)| = 119/64 from abs_of_nonneg (by norm_num)]
    norm_num
